import Mathlib

/-!
# Verification of `json_diff` (src/json_differ.py)

A shallow embedding of the recursive JSON tree differ and proofs about it.

The Python function `json_diff(json1, json2, parent_key, is_recursive)`
walks two JSON-like values and returns a dictionary with up to three
buckets (`modified`, `added`, `removed`), each mapping a path string to
the recorded value(s).  Python dictionaries are embedded as association
lists (`List (String × Value)`); a Python dict always has unique keys,
which appears below as the `WFV` well-formedness predicate where needed.

The Python code checks `is_recursive` only for the top-level input guard;
every internal recursive call passes `is_recursive=True`.  The embedding
therefore factors the function into a total worker `jdiff` (the exact
behaviour of any call with `is_recursive=True`) and the wrapper
`json_diff` carrying the `is_recursive` flag, which adds the `ValueError`
guard exactly where the Python code has it (after the null short-circuit,
before the type dispatch).
-/

set_option autoImplicit false

namespace JsonDiffer

/-- JSON values: null, scalars (bool / number / string), sequences and
mappings.  Mappings are association lists in iteration order, mirroring a
Python `dict`. -/
inductive Value where
  | null : Value
  | bool : Bool → Value
  | num : Int → Value
  | str : String → Value
  | arr : List Value → Value
  | obj : List (String × Value) → Value

/-- Structural (deep) equality test on values, mirroring Python `==` on
the JSON fragment. -/
def beqV : Value → Value → Bool
  | .null, .null => true
  | .bool a, .bool b => a == b
  | .num a, .num b => a == b
  | .str a, .str b => a == b
  | .arr l1, .arr l2 => beqL l1 l2
  | .obj l1, .obj l2 => beqO l1 l2
  | _, _ => false
where
  beqL : List Value → List Value → Bool
    | [], [] => true
    | a :: l1, b :: l2 => beqV a b && beqL l1 l2
    | _, _ => false
  beqO : List (String × Value) → List (String × Value) → Bool
    | [], [] => true
    | (k1, v1) :: l1, (k2, v2) :: l2 => k1 == k2 && beqV v1 v2 && beqO l1 l2
    | _, _ => false

mutual

theorem beqV_iff : ∀ (a b : Value), beqV a b = true ↔ a = b
  | .null, .null => by simp [beqV]
  | .bool a, .bool b => by simp [beqV]
  | .num a, .num b => by simp [beqV]
  | .str a, .str b => by simp [beqV]
  | .arr l1, .arr l2 => by
      simp only [beqV]
      rw [beqL_iff l1 l2]
      simp
  | .obj l1, .obj l2 => by
      simp only [beqV]
      rw [beqO_iff l1 l2]
      simp
  | .null, .bool _ | .null, .num _ | .null, .str _ | .null, .arr _
  | .null, .obj _ | .bool _, .null | .bool _, .num _ | .bool _, .str _
  | .bool _, .arr _ | .bool _, .obj _ | .num _, .null | .num _, .bool _
  | .num _, .str _ | .num _, .arr _ | .num _, .obj _ | .str _, .null
  | .str _, .bool _ | .str _, .num _ | .str _, .arr _ | .str _, .obj _
  | .arr _, .null | .arr _, .bool _ | .arr _, .num _ | .arr _, .str _
  | .arr _, .obj _ | .obj _, .null | .obj _, .bool _ | .obj _, .num _
  | .obj _, .str _ | .obj _, .arr _ => by simp [beqV]

theorem beqL_iff : ∀ (l1 l2 : List Value), beqV.beqL l1 l2 = true ↔ l1 = l2
  | [], [] => by simp [beqV.beqL]
  | a :: l1, b :: l2 => by
      simp only [beqV.beqL, Bool.and_eq_true]
      rw [beqV_iff a b, beqL_iff l1 l2]
      simp
  | [], _ :: _ => by simp [beqV.beqL]
  | _ :: _, [] => by simp [beqV.beqL]

theorem beqO_iff : ∀ (l1 l2 : List (String × Value)),
    beqV.beqO l1 l2 = true ↔ l1 = l2
  | [], [] => by simp [beqV.beqO]
  | (k1, v1) :: l1, (k2, v2) :: l2 => by
      simp only [beqV.beqO, Bool.and_eq_true]
      rw [beqV_iff v1 v2, beqO_iff l1 l2]
      simp [beq_iff_eq, and_assoc]
  | [], _ :: _ => by simp [beqV.beqO]
  | _ :: _, [] => by simp [beqV.beqO]

end

instance : DecidableEq Value := fun a b =>
  decidable_of_iff (beqV a b = true) (beqV_iff a b)

/-- `isinstance(x, (dict, list, type(None)))` of the Python input guard. -/
def isJsonType : Value → Bool
  | .null => true
  | .arr _ => true
  | .obj _ => true
  | _ => false

/-- Python dict lookup `d[k]` (first binding wins; with unique keys this is
the binding). -/
def getVal {α : Type} (k : String) : List (String × α) → Option α
  | [] => none
  | (k', v) :: rest => if k' = k then some v else getVal k rest

/-- Python dict assignment `d[k] = v`: replace the binding in place if the
key is present, append otherwise. -/
def upsert {α : Type} : List (String × α) → String → α → List (String × α)
  | [], k, v => [(k, v)]
  | (k', v') :: rest, k, v =>
      if k' = k then (k, v) :: rest else (k', v') :: upsert rest k v

/-- Python `d.update(l)`: upsert every binding of `l` into `d`, in order. -/
def updateA {α : Type} (d : List (String × α)) (l : List (String × α)) :
    List (String × α) :=
  l.foldl (fun m e => upsert m e.1 e.2) d

/-- The in-progress diff dictionary
`{'modified': {}, 'added': {}, 'removed': {}}` with all three buckets
present (line 86 of the source). -/
structure DiffAcc where
  modified : List (String × (Value × Value))
  added : List (String × Value)
  removed : List (String × Value)
  deriving DecidableEq

/-- The dictionary returned to the caller: a bucket key may be absent
(`none`) — which is what the final pruning comprehension produces for an
empty bucket — or present with its (possibly empty) contents. -/
structure Report where
  modified : Option (List (String × (Value × Value)))
  added : Option (List (String × Value))
  removed : Option (List (String × Value))
  deriving DecidableEq

/-- `{k: v for k, v in diff.items() if v}` — drop the empty buckets. -/
def pruneAcc (d : DiffAcc) : Report :=
  ⟨if d.modified.isEmpty then none else some d.modified,
   if d.added.isEmpty then none else some d.added,
   if d.removed.isEmpty then none else some d.removed⟩

/-- The report returned by the null short-circuit (lines 77–78): the
`modified` bucket holds the single pair and the other two buckets are
present but empty — this return is NOT pruned. -/
def nullReport (p : String) (j1 j2 : Value) : Report :=
  ⟨some [(p, (j1, j2))], some [], some []⟩

/-- `for key, value in sub_diff.items(): diff[key].update(value)` —
merge a sub-report into the running diff, per bucket. -/
def mergeSub (d : DiffAcc) (sub : Report) : DiffAcc :=
  ⟨(sub.modified.map (updateA d.modified)).getD d.modified,
   (sub.added.map (updateA d.added)).getD d.added,
   (sub.removed.map (updateA d.removed)).getD d.removed⟩

/-- Mapping-key path join: `f'{parent_key}.{k}' if parent_key else k`. -/
def joinKey (p k : String) : String := if p = "" then k else p ++ "." ++ k

/-- Sequence-index path join: `f'{parent_key}[{i}]'` (no special case for
an empty parent). -/
def idxJoin (p : String) (i : Nat) : String := p ++ "[" ++ toString i ++ "]"

theorem sizeOf_getVal {k : String} {l : List (String × Value)} {v : Value}
    (h : getVal k l = some v) : sizeOf v < sizeOf l := by
  induction l with
  | nil => simp [getVal] at h
  | cons e rest ih =>
      obtain ⟨k', v'⟩ := e
      by_cases hk : k' = k
      · simp [getVal, hk] at h
        subst h
        simp
        omega
      · simp [getVal, hk] at h
        have := ih h
        simp
        omega

theorem sizeOf_zip (l1 l2 : List Value) :
    sizeOf (l1.zip l2) ≤ sizeOf l1 + sizeOf l2 := by
  induction l1 generalizing l2 with
  | nil => simp [List.zip]
  | cons a l1 ih =>
      cases l2 with
      | nil => simp [List.zip]
      | cons b l2 =>
          simp [List.zip_cons_cons]
          have := ih l2
          omega

mutual

/-- The recursive worker: the exact behaviour of `json_diff` for any call
with `is_recursive=True` (every internal recursive call in the source is
such a call). -/
def jdiff (j1 j2 : Value) (p : String) : Report :=
  if j1 = .null ∨ j2 = .null then
    nullReport p j1 j2
  else
    match j1, j2 with
    | .obj l1, .obj l2 =>
        let rem :=
          (l1.filter (fun kv => (getVal kv.1 l2).isNone)).foldl
            (fun m kv => upsert m (joinKey p kv.1) kv.2) []
        let add :=
          (l2.filter (fun kv => (getVal kv.1 l1).isNone)).foldl
            (fun m kv => upsert m (joinKey p kv.1) kv.2) []
        pruneAcc (diffCommon l2 p l1 ⟨[], add, rem⟩)
    | .arr l1, .arr l2 =>
        if l1.length ≠ l2.length then
          pruneAcc ⟨[(p, (.arr l1, .arr l2))], [], []⟩
        else
          pruneAcc (diffItems p 0 (l1.zip l2) ⟨[], [], []⟩)
    | j1, j2 =>
        if j1 ≠ j2 then pruneAcc ⟨[(p, (j1, j2))], [], []⟩
        else pruneAcc ⟨[], [], []⟩
termination_by sizeOf j1 + sizeOf j2
decreasing_by
  all_goals
    first
      | (have hsz := sizeOf_zip l1 l2
         simp
         omega)
      | (simp
         omega)
      | simp

/-- The loop over the common keys of the two mappings: iterate the entries
of `json1`, skip keys absent from `json2`, recurse on the pair of values
and merge the sub-report (lines 103–107). -/
def diffCommon (l2 : List (String × Value)) (p : String) :
    List (String × Value) → DiffAcc → DiffAcc
  | [], acc => acc
  | (k, v) :: rest, acc =>
      match h : getVal k l2 with
      | some v2 =>
          diffCommon l2 p rest (mergeSub acc (jdiff v v2 (joinKey p k)))
      | none => diffCommon l2 p rest acc
termination_by l _ => sizeOf l + sizeOf l2
decreasing_by
  all_goals
    first
      | (have hsz := sizeOf_getVal h
         simp
         omega)
      | (simp
         omega)
      | simp

/-- The loop over `enumerate(zip(json1, json2))` for equal-length
sequences (lines 113–117). -/
def diffItems (p : String) (i : Nat) :
    List (Value × Value) → DiffAcc → DiffAcc
  | [], acc => acc
  | (a, b) :: rest, acc =>
      diffItems p (i + 1) rest (mergeSub acc (jdiff a b (idxJoin p i)))
termination_by l _ => sizeOf l
decreasing_by
  all_goals
    first
      | (simp
         omega)
      | simp

end

/-- The full `json_diff(json1, json2, parent_key, is_recursive)`: the null
short-circuit, then (only when `is_recursive` is false) the input guard
raising `ValueError`, then the same type dispatch as `jdiff` on the pair. -/
def json_diff (json1 json2 : Value) (parent_key : String)
    (is_recursive : Bool) : Except String Report :=
  if json1 = .null ∨ json2 = .null then
    .ok (nullReport parent_key json1 json2)
  else if is_recursive = false ∧ ¬(isJsonType json1 ∨ isJsonType json2) then
    .error "Both json1 and json2 should be either a dictionary, list, or None"
  else
    .ok (jdiff json1 json2 parent_key)

/-- The error message of the `ValueError` on line 84 of the source. -/
def invalidInputMsg : String :=
  "Both json1 and json2 should be either a dictionary, list, or None"

/-- A bare scalar: a value that is neither Null nor a Sequence nor a
Mapping. -/
def isScalar : Value → Bool
  | .bool _ => true
  | .num _ => true
  | .str _ => true
  | _ => false

def isObj : Value → Bool
  | .obj _ => true
  | _ => false

def isArr : Value → Bool
  | .arr _ => true
  | _ => false

/-- No bucket of the report is present-but-empty. -/
def Report.noEmptyBuckets (r : Report) : Prop :=
  r.modified ≠ some [] ∧ r.added ≠ some [] ∧ r.removed ≠ some []

theorem pruneAcc_noEmptyBuckets (d : DiffAcc) :
    (pruneAcc d).noEmptyBuckets := by
  obtain ⟨m, a, r⟩ := d
  refine ⟨?_, ?_, ?_⟩ <;>
    · simp only [pruneAcc, Report.noEmptyBuckets]
      split <;> simp_all [List.isEmpty_iff]

theorem mergeSub_emptyReport (d : DiffAcc) :
    mergeSub d ⟨none, none, none⟩ = d := by
  obtain ⟨m, a, r⟩ := d
  simp [mergeSub]

theorem isScalar_eq_not_isJsonType (v : Value) :
    isScalar v = !isJsonType v := by
  cases v <;> rfl

/-- One-step unfolding of the worker on non-null mixed-type or scalar
inputs: the fall-through `else` branch of the source (lines 119–121). -/
theorem jdiff_fallback (j1 j2 : Value) (p : String)
    (h1 : j1 ≠ .null) (h2 : j2 ≠ .null)
    (hobj : ¬(isObj j1 ∧ isObj j2)) (harr : ¬(isArr j1 ∧ isArr j2)) :
    jdiff j1 j2 p =
      if j1 = j2 then ⟨none, none, none⟩
      else ⟨some [(p, (j1, j2))], none, none⟩ := by
  cases j1 <;> cases j2 <;> simp_all [isObj, isArr] <;>
    (rw [jdiff]
     all_goals try (intros; simp_all)
     all_goals try simp [pruneAcc]
     all_goals try (split <;> simp_all [pruneAcc]))

/-- Key uniqueness along one association list, phrased through the lookup
function: iterating the entries of a Python dict never repeats a key. -/
def nodupKeys {α : Type} : List (String × α) → Bool
  | [] => true
  | (k, _) :: rest => (getVal k rest).isNone && nodupKeys rest

/-- The value contains no Null anywhere in its tree. -/
def noNull : Value → Bool
  | .null => false
  | .bool _ => true
  | .num _ => true
  | .str _ => true
  | .arr l => noNullL l
  | .obj l => noNullO l
where
  noNullL : List Value → Bool
    | [] => true
    | a :: l => noNull a && noNullL l
  noNullO : List (String × Value) → Bool
    | [] => true
    | (_, v) :: l => noNull v && noNullO l

/-- Well-formed embedding of Python data: every mapping in the tree has
unique keys (Python dict keys are unique by construction). -/
def WFV : Value → Bool
  | .null => true
  | .bool _ => true
  | .num _ => true
  | .str _ => true
  | .arr l => wfL l
  | .obj l => nodupKeys l && wfO l
where
  wfL : List Value → Bool
    | [] => true
    | a :: l => WFV a && wfL l
  wfO : List (String × Value) → Bool
    | [] => true
    | (_, v) :: l => WFV v && wfO l

theorem getVal_isSome_of_mem {α : Type} {k : String} {v : α}
    {l : List (String × α)} (h : (k, v) ∈ l) : (getVal k l).isSome := by
  induction l with
  | nil => simp at h
  | cons e rest ih =>
      obtain ⟨k', v'⟩ := e
      rcases List.mem_cons.mp h with heq | hmem
      · injection heq with h1 h2
        subst h1
        simp [getVal]
      · by_cases hk : k' = k <;> simp [getVal, hk, ih hmem]

theorem getVal_of_mem_nodup {α : Type} {k : String} {v : α}
    {l : List (String × α)} (hnd : nodupKeys l) (h : (k, v) ∈ l) :
    getVal k l = some v := by
  induction l with
  | nil => simp at h
  | cons e rest ih =>
      obtain ⟨k', v'⟩ := e
      simp only [nodupKeys, Bool.and_eq_true] at hnd
      rcases List.mem_cons.mp h with heq | hmem
      · injection heq with h1 h2
        subst h1
        subst h2
        simp [getVal]
      · by_cases hk : k' = k
        · subst hk
          have hs := getVal_isSome_of_mem hmem
          have hn := hnd.1
          simp_all
        · simp only [getVal, if_neg hk]
          exact ih hnd.2 hmem

theorem noNull_of_mem_arr {l : List Value} {x : Value}
    (hn : noNull (.arr l)) (hx : x ∈ l) : noNull x := by
  simp only [noNull] at hn
  induction l with
  | nil => simp at hx
  | cons a t ih =>
      simp only [noNull.noNullL, Bool.and_eq_true] at hn
      rcases List.mem_cons.mp hx with h1 | h2
      · exact h1 ▸ hn.1
      · exact ih hn.2 h2

theorem WFV_of_mem_arr {l : List Value} {x : Value}
    (hw : WFV (.arr l)) (hx : x ∈ l) : WFV x := by
  simp only [WFV] at hw
  induction l with
  | nil => simp at hx
  | cons a t ih =>
      simp only [WFV.wfL, Bool.and_eq_true] at hw
      rcases List.mem_cons.mp hx with h1 | h2
      · exact h1 ▸ hw.1
      · exact ih hw.2 h2

theorem noNull_of_mem_obj {l : List (String × Value)} {k : String}
    {v : Value} (hn : noNull (.obj l)) (h : (k, v) ∈ l) : noNull v := by
  simp only [noNull] at hn
  induction l with
  | nil => simp at h
  | cons a t ih =>
      obtain ⟨ak, av⟩ := a
      simp only [noNull.noNullO, Bool.and_eq_true] at hn
      rcases List.mem_cons.mp h with h1 | h2
      · injection h1 with e1 e2
        exact e2 ▸ hn.1
      · exact ih hn.2 h2

theorem WFV_of_mem_obj {l : List (String × Value)} {k : String}
    {v : Value} (hw : WFV (.obj l)) (h : (k, v) ∈ l) : WFV v := by
  simp only [WFV, Bool.and_eq_true] at hw
  have hwo := hw.2
  clear hw
  induction l with
  | nil => simp at h
  | cons a t ih =>
      obtain ⟨ak, av⟩ := a
      simp only [WFV.wfO, Bool.and_eq_true] at hwo
      rcases List.mem_cons.mp h with h1 | h2
      · injection h1 with e1 e2
        exact e2 ▸ hwo.1
      · exact ih h2 hwo.2

theorem nodupKeys_of_WFV_obj {l : List (String × Value)}
    (hw : WFV (.obj l)) : nodupKeys l := by
  simp only [WFV, Bool.and_eq_true] at hw
  exact hw.1

theorem zip_self (l : List Value) : l.zip l = l.map (fun x => (x, x)) := by
  induction l with
  | nil => rfl
  | cons a l ih => simp [List.zip_cons_cons, ih]

theorem sizeOf_snd_of_mem {k : String} {v : Value}
    {l : List (String × Value)} (h : (k, v) ∈ l) : sizeOf v < sizeOf l := by
  have := List.sizeOf_lt_of_mem h
  simp at this
  omega

theorem sizeOf_of_mem {v : Value} {l : List Value} (h : v ∈ l) :
    sizeOf v < sizeOf l :=
  List.sizeOf_lt_of_mem h

/-- If every recursive sub-diff in a common-keys loop is the empty report,
the loop leaves the accumulator unchanged. -/
theorem diffCommon_id (l2 : List (String × Value)) (p : String)
    (l : List (String × Value)) (acc : DiffAcc)
    (h : ∀ kv ∈ l, ∀ v2, getVal kv.1 l2 = some v2 →
      jdiff kv.2 v2 (joinKey p kv.1) = ⟨none, none, none⟩) :
    diffCommon l2 p l acc = acc := by
  induction l generalizing acc with
  | nil => rw [diffCommon]
  | cons e rest ih =>
      obtain ⟨k, v⟩ := e
      rw [diffCommon]
      split
      · rename_i v2 hv2
        rw [h (k, v) (by simp) v2 hv2, mergeSub_emptyReport]
        exact ih _ fun kv hkv => h kv (List.mem_cons_of_mem _ hkv)
      · exact ih _ fun kv hkv => h kv (List.mem_cons_of_mem _ hkv)

/-- If every recursive sub-diff in an index loop is the empty report, the
loop leaves the accumulator unchanged. -/
theorem diffItems_id (p : String) (i : Nat) (pairs : List (Value × Value))
    (acc : DiffAcc)
    (h : ∀ ab ∈ pairs, ∀ q, jdiff ab.1 ab.2 q = ⟨none, none, none⟩) :
    diffItems p i pairs acc = acc := by
  induction pairs generalizing acc i with
  | nil => rw [diffItems]
  | cons e rest ih =>
      obtain ⟨a, b⟩ := e
      rw [diffItems]
      rw [h (a, b) (by simp) (idxJoin p i), mergeSub_emptyReport]
      exact ih _ _ fun ab hab => h ab (List.mem_cons_of_mem _ hab)

/-- Diffing a well-formed, null-free value against itself yields the empty
report at every recursion level. -/
theorem jdiff_refl : ∀ (v : Value) (p : String), noNull v → WFV v →
    jdiff v v p = ⟨none, none, none⟩
  | .null, p, hn, hw => by simp [noNull] at hn
  | .bool b, p, hn, hw => by
      rw [jdiff]
      all_goals try exact fun _ _ h _ => Value.noConfusion h
      simp [pruneAcc]
  | .num n, p, hn, hw => by
      rw [jdiff]
      all_goals try exact fun _ _ h _ => Value.noConfusion h
      simp [pruneAcc]
  | .str s, p, hn, hw => by
      rw [jdiff]
      all_goals try exact fun _ _ h _ => Value.noConfusion h
      simp [pruneAcc]
  | .arr l, p, hn, hw => by
      rw [jdiff]
      all_goals try exact fun _ _ h _ => Value.noConfusion h
      simp only [reduceCtorEq, or_self, if_false]
      rw [if_neg (by simp)]
      rw [diffItems_id _ _ _ _ ?_, pruneAcc]
      · simp
      · intro ab hab q
        rw [zip_self] at hab
        obtain ⟨x, hx, hxab⟩ := List.mem_map.mp hab
        have hsz : sizeOf x < sizeOf l := sizeOf_of_mem hx
        rw [← hxab]
        exact jdiff_refl x q (noNull_of_mem_arr hn hx) (WFV_of_mem_arr hw hx)
  | .obj l, p, hn, hw => by
      rw [jdiff]
      all_goals try exact fun _ _ h _ => Value.noConfusion h
      simp only [reduceCtorEq, or_self, if_false]
      have hfilt : l.filter (fun kv => (getVal kv.1 l).isNone) = [] := by
        rw [List.filter_eq_nil_iff]
        intro kv hkv
        have hs := getVal_isSome_of_mem (k := kv.1) (v := kv.2) (by simpa using hkv)
        simp only [Option.isNone_iff_eq_none]
        exact Option.isSome_iff_ne_none.mp hs
      simp only [hfilt, List.foldl_nil]
      rw [diffCommon_id _ _ _ _ ?_, pruneAcc]
      · simp
      · intro kv hkv v2 hv2
        have hv2' : v2 = kv.2 := by
          have hg := getVal_of_mem_nodup (nodupKeys_of_WFV_obj hw)
            (k := kv.1) (v := kv.2) (by simpa using hkv)
          rw [hg] at hv2
          injection hv2 with e
          exact e.symm
        subst hv2'
        have hsz : sizeOf kv.2 < sizeOf l :=
          sizeOf_snd_of_mem (k := kv.1) (v := kv.2) (by simpa using hkv)
        exact jdiff_refl kv.2 (joinKey p kv.1)
          (noNull_of_mem_obj hn (by simpa using hkv))
          (WFV_of_mem_obj hw (by simpa using hkv))
termination_by v _ _ _ => sizeOf v
decreasing_by
  all_goals
    first
      | omega
      | (simp
         omega)

theorem isScalar_ne_null {v : Value} (h : isScalar v) : v ≠ .null := by
  cases v <;> simp_all [isScalar]

theorem isScalar_not_isObj {v : Value} (h : isScalar v) : isObj v = false := by
  cases v <;> simp_all [isScalar, isObj]

theorem isScalar_not_isArr {v : Value} (h : isScalar v) : isArr v = false := by
  cases v <;> simp_all [isScalar, isArr]

theorem isScalar_iff_not_isJsonType {v : Value} :
    isScalar v = true ↔ isJsonType v = false := by
  cases v <;> simp [isScalar, isJsonType]

theorem noNull_ne_null {v : Value} (h : noNull v) : v ≠ .null := by
  cases v <;> simp_all [noNull]

/-- Any report produced by the (non-null) main path of the worker has been
pruned, so none of its buckets is present-but-empty. -/
theorem jdiff_noEmptyBuckets (j1 j2 : Value) (p : String)
    (h1 : j1 ≠ .null) (h2 : j2 ≠ .null) : (jdiff j1 j2 p).noEmptyBuckets := by
  rw [jdiff.eq_def]
  rw [if_neg (by simp [h1, h2])]
  split
  · exact pruneAcc_noEmptyBuckets _
  · split
    · exact pruneAcc_noEmptyBuckets _
    · exact pruneAcc_noEmptyBuckets _
  · split
    · exact pruneAcc_noEmptyBuckets _
    · exact pruneAcc_noEmptyBuckets _

/-- The index loop is the left fold of the merge step over the enumerated
pairs. -/
theorem diffItems_eq_foldl (p : String) : ∀ (i : Nat)
    (pairs : List (Value × Value)) (acc : DiffAcc),
    diffItems p i pairs acc =
      (List.enumFrom i pairs).foldl
        (fun acc x => mergeSub acc (jdiff x.2.1 x.2.2 (idxJoin p x.1))) acc
  | i, [], acc => by
      rw [diffItems]
      simp [List.enumFrom]
  | i, (a, b) :: rest, acc => by
      rw [diffItems]
      rw [diffItems_eq_foldl p (i + 1) rest]
      simp [List.enumFrom]

/-- The common-keys loop is the left fold of the merge step over the
entries of `json1` whose key also occurs in `json2`. -/
theorem diffCommon_eq_foldl (l2 : List (String × Value)) (p : String) :
    ∀ (l : List (String × Value)) (acc : DiffAcc),
    diffCommon l2 p l acc =
      (l.filter (fun kv => (getVal kv.1 l2).isSome)).foldl
        (fun acc kv => mergeSub acc
          (jdiff kv.2 ((getVal kv.1 l2).getD .null) (joinKey p kv.1))) acc
  | [], acc => by
      rw [diffCommon]
      simp
  | (k, v) :: rest, acc => by
      rw [diffCommon]
      split
      · rename_i v2 hv2
        rw [diffCommon_eq_foldl l2 p rest]
        simp [hv2]
      · rename_i hv2
        rw [diffCommon_eq_foldl l2 p rest]
        simp [hv2]

/- ------------------------------------------------------------------ -/
/- Claim theorems                                                      -/
/- ------------------------------------------------------------------ -/

/-- C1, counterexample: the claim says every returned report, including
the one returned by the null short-circuit, drops its empty buckets.  But
the null short-circuit (lines 77–78) returns its report literal without
pruning: `json_diff(None, None)` returns a dictionary that maps `added`
(and `removed`) to an empty mapping, exactly as the doctest on line 54 of
the source shows. -/
theorem claim_C1_counterexample :
    json_diff .null .null "" false =
      .ok ⟨some [("", (.null, .null))], some [], some []⟩ ∧
    ∃ rep, json_diff .null .null "" false = .ok rep ∧ rep.added = some [] ∧
      rep.removed = some [] :=
  ⟨rfl, ⟨_, rfl, rfl, rfl⟩⟩

theorem json_diff_ok_noEmptyBuckets {j1 j2 : Value} {p : String} {r : Bool}
    {rep : Report} (h1 : j1 ≠ .null) (h2 : j2 ≠ .null)
    (h : json_diff j1 j2 p r = .ok rep) : rep.noEmptyBuckets := by
  unfold json_diff at h
  rw [if_neg (by simp [h1, h2])] at h
  split at h
  · simp at h
  · injection h with he
    exact he ▸ jdiff_noEmptyBuckets j1 j2 p h1 h2

/-- C1, amended: every report returned from a call on two non-Null inputs
has its empty buckets dropped (the pruning on lines 123–125), so such a
report never maps a bucket name to an empty mapping; only the null
short-circuit return (lines 77–78) escapes the pruning and carries
explicit empty `added`/`removed` buckets. -/
theorem claim_C1_amended : ∀ (j1 j2 : Value) (p : String) (r : Bool)
    (rep : Report), j1 ≠ .null → j2 ≠ .null → json_diff j1 j2 p r = .ok rep →
    rep.modified ≠ some [] ∧ rep.added ≠ some [] ∧ rep.removed ≠ some [] := by
  intro j1 j2 p r rep h1 h2 h
  exact json_diff_ok_noEmptyBuckets h1 h2 h

theorem claim_C1_witness :
    (⟨none, none, some [("a", Value.num 1)]⟩ : Report).modified ≠ some [] ∧
    (⟨none, none, some [("a", Value.num 1)]⟩ : Report).added ≠ some [] ∧
    (⟨none, none, some [("a", Value.num 1)]⟩ : Report).removed ≠ some [] :=
  claim_C1_amended (.obj [("a", .num 1)]) (.obj []) "" false
    ⟨none, none, some [("a", Value.num 1)]⟩ (by simp) (by simp)
    (by simp [json_diff, jdiff, diffCommon, getVal, upsert, pruneAcc,
          joinKey, isJsonType])

/-- C3: the wrapper errors exactly when called non-recursively on two bare
scalars; any recursive call returns a report; and the only error value is
the single `ValueError` message of line 84. -/
theorem claim_C3_error_characterization :
    (∀ (j1 j2 : Value) (p : String),
      json_diff j1 j2 p false = .error invalidInputMsg ↔
        (isScalar j1 ∧ isScalar j2)) ∧
    (∀ (j1 j2 : Value) (p : String), ∃ rep, json_diff j1 j2 p true = .ok rep) ∧
    (∀ (j1 j2 : Value) (p : String) (r : Bool) (e : String),
      json_diff j1 j2 p r = .error e → e = invalidInputMsg) := by
  refine ⟨?_, ?_, ?_⟩
  · intro j1 j2 p
    constructor
    · intro h
      unfold json_diff at h
      by_cases hnull : j1 = Value.null ∨ j2 = Value.null
      · rw [if_pos hnull] at h
        exact absurd h (by simp)
      · rw [if_neg hnull] at h
        by_cases hg : isJsonType j1 ∨ isJsonType j2
        · rw [if_neg (by simp [hg])] at h
          exact absurd h (by simp)
        · simp only [not_or, Bool.not_eq_true] at hg
          exact ⟨isScalar_iff_not_isJsonType.mpr hg.1,
                 isScalar_iff_not_isJsonType.mpr hg.2⟩
    · rintro ⟨h1, h2⟩
      unfold json_diff
      rw [if_neg (by simp [isScalar_ne_null h1, isScalar_ne_null h2])]
      rw [if_pos ⟨rfl, by
        simp [isScalar_iff_not_isJsonType.mp h1,
              isScalar_iff_not_isJsonType.mp h2]⟩]
      rfl
  · intro j1 j2 p
    unfold json_diff
    by_cases hnull : j1 = Value.null ∨ j2 = Value.null
    · rw [if_pos hnull]
      exact ⟨_, rfl⟩
    · rw [if_neg hnull, if_neg (by simp)]
      exact ⟨_, rfl⟩
  · intro j1 j2 p r e h
    unfold json_diff at h
    split at h
    · simp at h
    · split at h
      · injection h with he
        exact he.symm
      · simp at h

theorem claim_C3_witness :
    (json_diff (.str "x") (.str "y") "" false = .error invalidInputMsg) ∧
    (∃ rep, json_diff (.str "x") (.str "y") "" true = .ok rep) :=
  ⟨(claim_C3_error_characterization.1 (.str "x") (.str "y") "").mpr
     ⟨by decide, by decide⟩,
   claim_C3_error_characterization.2.1 (.str "x") (.str "y") ""⟩

/-- C4: whenever either input is Null, the call — recursive or top-level,
whatever the other input is — immediately returns the report whose
`modified` bucket holds exactly the pair at the current parent path (and
whose `added`/`removed` buckets are present but empty, per lines 77–78);
in particular the short-circuit takes precedence over the input guard. -/
theorem claim_C4_null_short_circuit : ∀ (j1 j2 : Value) (p : String)
    (r : Bool), j1 = .null ∨ j2 = .null →
    json_diff j1 j2 p r = .ok ⟨some [(p, (j1, j2))], some [], some []⟩ := by
  intro j1 j2 p r h
  unfold json_diff
  rw [if_pos h]
  rfl

theorem claim_C4_witness :
    json_diff .null (.num 1) "" false =
      .ok ⟨some [("", (.null, .num 1))], some [], some []⟩ ∧
    json_diff (.str "s") .null "" false =
      .ok ⟨some [("", (.str "s", .null))], some [], some []⟩ :=
  ⟨claim_C4_null_short_circuit .null (.num 1) "" false (Or.inl rfl),
   claim_C4_null_short_circuit (.str "s") .null "" false (Or.inr rfl)⟩

/-- C5: for two sequences, a length mismatch records the whole pair as a
single `modified` entry at the parent path (no element-level diffing);
equal lengths recurse pairwise by index at path `p[i]`, merging the
sub-reports bucket by bucket. -/
theorem claim_C5_sequences :
    (∀ (l1 l2 : List Value) (p : String) (r : Bool),
      l1.length ≠ l2.length →
      json_diff (.arr l1) (.arr l2) p r =
        .ok ⟨some [(p, (.arr l1, .arr l2))], none, none⟩) ∧
    (∀ (l1 l2 : List Value) (p : String) (r : Bool),
      l1.length = l2.length →
      json_diff (.arr l1) (.arr l2) p r =
        .ok (pruneAcc ((List.enumFrom 0 (l1.zip l2)).foldl
          (fun acc x => mergeSub acc (jdiff x.2.1 x.2.2 (idxJoin p x.1)))
          ⟨[], [], []⟩))) := by
  constructor
  · intro l1 l2 p r h
    unfold json_diff
    rw [if_neg (by simp), if_neg (by simp [isJsonType])]
    rw [jdiff.eq_def]
    simp only [reduceCtorEq, or_self, if_false]
    rw [if_pos h]
    simp [pruneAcc]
  · intro l1 l2 p r h
    unfold json_diff
    rw [if_neg (by simp), if_neg (by simp [isJsonType])]
    rw [jdiff.eq_def]
    simp only [reduceCtorEq, or_self, if_false]
    rw [if_neg (by simpa using h)]
    rw [diffItems_eq_foldl]

theorem claim_C5_witness :
    json_diff (.arr [.num 1, .num 2]) (.arr [.num 1]) "k" false =
      .ok ⟨some [("k", (.arr [.num 1, .num 2], .arr [.num 1]))],
           none, none⟩ ∧
    json_diff (.arr [.num 1]) (.arr [.num 2]) "k" false =
      .ok (pruneAcc ((List.enumFrom 0 ([Value.num 1].zip [Value.num 2])).foldl
        (fun acc x => mergeSub acc (jdiff x.2.1 x.2.2 (idxJoin "k" x.1)))
        ⟨[], [], []⟩)) :=
  ⟨claim_C5_sequences.1 [.num 1, .num 2] [.num 1] "k" false (by decide),
   claim_C5_sequences.2 [.num 1] [.num 2] "k" false (by decide)⟩

/-- C8: any comparison step not caught by the null short-circuit, the
both-Mapping case or the both-Sequence case compares the two values by
deep structural equality: unequal values are recorded wholesale under
`modified` at the parent path, equal values contribute nothing.  The
second part restates this through the wrapper for any call that does not
hit the top-level guard. -/
theorem claim_C8_fallback :
    (∀ (j1 j2 : Value) (p : String),
      j1 ≠ .null → j2 ≠ .null →
      ¬(isObj j1 ∧ isObj j2) → ¬(isArr j1 ∧ isArr j2) →
      jdiff j1 j2 p =
        if j1 = j2 then ⟨none, none, none⟩
        else ⟨some [(p, (j1, j2))], none, none⟩) ∧
    (∀ (j1 j2 : Value) (p : String) (r : Bool),
      j1 ≠ .null → j2 ≠ .null →
      ¬(isObj j1 ∧ isObj j2) → ¬(isArr j1 ∧ isArr j2) →
      (r = true ∨ isJsonType j1 ∨ isJsonType j2) →
      json_diff j1 j2 p r =
        .ok (if j1 = j2 then ⟨none, none, none⟩
          else ⟨some [(p, (j1, j2))], none, none⟩)) := by
  constructor
  · exact jdiff_fallback
  · intro j1 j2 p r h1 h2 hobj harr hg
    unfold json_diff
    rw [if_neg (by simp [h1, h2])]
    rw [if_neg (by
      rcases hg with hg | hg
      · simp [hg]
      · simp [hg])]
    rw [jdiff_fallback j1 j2 p h1 h2 hobj harr]

theorem claim_C8_witness :
    jdiff (.num 1) (.str "a") "x" =
      ⟨some [("x", (.num 1, .str "a"))], none, none⟩ ∧
    jdiff (.num 1) (.num 1) "x" = ⟨none, none, none⟩ ∧
    jdiff (.obj []) (.arr []) "x" =
      ⟨some [("x", (.obj [], .arr []))], none, none⟩ := by
  refine ⟨?_, ?_, ?_⟩
  · have h := claim_C8_fallback.1 (.num 1) (.str "a") "x"
      (by simp) (by simp) (by simp [isObj]) (by simp [isArr])
    simpa using h
  · have h := claim_C8_fallback.1 (.num 1) (.num 1) "x"
      (by simp) (by simp) (by simp [isObj]) (by simp [isArr])
    simpa using h
  · have h := claim_C8_fallback.1 (.obj []) (.arr []) "x"
      (by simp) (by simp) (by simp [isObj]) (by simp [isArr])
    simpa using h

/-- C10: a call on two non-Null inputs that does not hit the top-level
guard returns a report in which every present bucket is non-empty; and
conversely a returned report with a present-but-empty bucket can only
come from the null short-circuit, i.e. one of the two inputs was Null. -/
theorem claim_C10_empty_buckets :
    (∀ (j1 j2 : Value) (p : String) (r : Bool),
      j1 ≠ .null → j2 ≠ .null → (r = true ∨ isJsonType j1 ∨ isJsonType j2) →
      ∃ rep, json_diff j1 j2 p r = .ok rep ∧ rep.modified ≠ some [] ∧
        rep.added ≠ some [] ∧ rep.removed ≠ some []) ∧
    (∀ (j1 j2 : Value) (p : String) (r : Bool) (rep : Report),
      json_diff j1 j2 p r = .ok rep →
      (rep.modified = some [] ∨ rep.added = some [] ∨ rep.removed = some []) →
      j1 = .null ∨ j2 = .null) := by
  constructor
  · intro j1 j2 p r h1 h2 hg
    refine ⟨jdiff j1 j2 p, ?_, jdiff_noEmptyBuckets j1 j2 p h1 h2⟩
    unfold json_diff
    rw [if_neg (by simp [h1, h2])]
    rw [if_neg (by
      rcases hg with hg | hg
      · simp [hg]
      · simp [hg])]
  · intro j1 j2 p r rep h hempty
    by_contra hcon
    simp only [not_or] at hcon
    have hne := json_diff_ok_noEmptyBuckets hcon.1 hcon.2 h
    rcases hempty with he | he | he
    · exact hne.1 he
    · exact hne.2.1 he
    · exact hne.2.2 he

theorem claim_C10_witness :
    (∃ rep, json_diff (.obj [("a", .num 1)]) (.obj []) "" false = .ok rep ∧
      rep.modified ≠ some [] ∧ rep.added ≠ some [] ∧ rep.removed ≠ some []) ∧
    (Value.null = Value.null ∨ Value.null = Value.null) :=
  ⟨claim_C10_empty_buckets.1 (.obj [("a", .num 1)]) (.obj []) "" false
     (by simp) (by simp) (Or.inr (Or.inl (by simp [isJsonType]))),
   claim_C10_empty_buckets.2 .null .null "" false
     ⟨some [("", (.null, .null))], some [], some []⟩ rfl
     (Or.inr (Or.inl rfl))⟩

/-- C2, counterexample: the claim states `diff(v, v)` is empty for every
Value `v` other than Null, including bare scalars.  Both parts fail on the
code: a bare scalar compared with itself at the top level raises the
input-guard `ValueError` instead of returning a report, and a mapping
containing a Null value yields a non-empty report because the null
short-circuit fires inside the recursion even when both sides are equal. -/
theorem claim_C2_counterexample :
    json_diff (.str "x") (.str "x") "" false = .error invalidInputMsg ∧
    json_diff (.obj [("a", .null)]) (.obj [("a", .null)]) "" false =
      .ok ⟨some [("a", (.null, .null))], none, none⟩ := by
  constructor
  · rfl
  · simp [json_diff, jdiff, diffCommon, getVal, upsert, updateA, mergeSub,
      pruneAcc, joinKey, nullReport, isJsonType]

/-- C2, amended: for every well-formed Value `v` that contains no Null
anywhere, `diff(v, v)` returns the empty report — at any recursion level,
and at the top level whenever `v` is not a bare scalar (two bare scalars
at the top level raise the guard instead, see C3); `diff(Null, Null)`
returns the single `modified` pair at the root path (with present-but-
empty `added`/`removed`, see C1). -/
theorem claim_C2_amended :
    (∀ (v : Value) (p : String), noNull v → WFV v →
      json_diff v v p true = .ok ⟨none, none, none⟩) ∧
    (∀ v : Value, noNull v → WFV v → isJsonType v →
      json_diff v v "" false = .ok ⟨none, none, none⟩) ∧
    json_diff .null .null "" false =
      .ok ⟨some [("", (.null, .null))], some [], some []⟩ := by
  refine ⟨?_, ?_, rfl⟩
  · intro v p hn hw
    unfold json_diff
    rw [if_neg (by simp [noNull_ne_null hn])]
    rw [if_neg (by simp)]
    rw [jdiff_refl v p hn hw]
  · intro v hn hw ht
    unfold json_diff
    rw [if_neg (by simp [noNull_ne_null hn])]
    rw [if_neg (by simp [ht])]
    rw [jdiff_refl v "" hn hw]

theorem claim_C2_witness :
    json_diff (.obj [("a", .num 1), ("b", .str "s")])
      (.obj [("a", .num 1), ("b", .str "s")]) "" false =
      .ok ⟨none, none, none⟩ ∧
    json_diff (.num 7) (.num 7) "q" true = .ok ⟨none, none, none⟩ :=
  ⟨claim_C2_amended.2.1 (.obj [("a", .num 1), ("b", .str "s")])
     (by decide) (by decide) (by decide),
   claim_C2_amended.1 (.num 7) "q" (by decide) (by decide)⟩

/-- C7: path strings are formed exactly by the two join rules of lines 94
and 114 — a mapping key `k` under parent `p` yields `k` when `p` is empty
and `p ++ "." ++ k` otherwise, a sequence index `i` always yields
`p ++ "[" ++ i ++ "]"` — and every recorded entry (removed, added,
modified at a mapping key, modified at a sequence index) uses exactly
these joined paths. -/
theorem claim_C7_path_formation :
    (∀ k : String, joinKey "" k = k) ∧
    (∀ p k : String, p ≠ "" → joinKey p k = p ++ "." ++ k) ∧
    (∀ (p : String) (i : Nat), idxJoin p i = p ++ "[" ++ toString i ++ "]") ∧
    (∀ (p k : String) (v : Value), jdiff (.obj [(k, v)]) (.obj []) p =
      ⟨none, none, some [(joinKey p k, v)]⟩) ∧
    (∀ (p k : String) (v : Value), jdiff (.obj []) (.obj [(k, v)]) p =
      ⟨none, some [(joinKey p k, v)], none⟩) ∧
    (∀ (p k : String) (a b : Value), a ≠ b → isScalar a → isScalar b →
      jdiff (.obj [(k, a)]) (.obj [(k, b)]) p =
      ⟨some [(joinKey p k, (a, b))], none, none⟩) ∧
    (∀ (p : String) (a b : Value), a ≠ b → isScalar a → isScalar b →
      jdiff (.arr [a]) (.arr [b]) p =
      ⟨some [(idxJoin p 0, (a, b))], none, none⟩) := by
  refine ⟨fun k => by simp [joinKey], fun p k h => by simp [joinKey, h],
    fun p i => rfl, ?_, ?_, ?_, ?_⟩
  · intro p k v
    simp [jdiff, diffCommon, getVal, upsert, pruneAcc]
  · intro p k v
    simp [jdiff, diffCommon, getVal, upsert, pruneAcc]
  · intro p k a b hne ha hb
    have hsub : jdiff a b (joinKey p k) =
        ⟨some [(joinKey p k, (a, b))], none, none⟩ := by
      rw [jdiff_fallback a b _ (isScalar_ne_null ha) (isScalar_ne_null hb)
        (by simp [isScalar_not_isObj ha]) (by simp [isScalar_not_isArr ha])]
      rw [if_neg hne]
    simp [jdiff, diffCommon_eq_foldl, getVal, hsub, mergeSub, updateA,
      upsert, pruneAcc]
  · intro p a b hne ha hb
    have hsub : jdiff a b (idxJoin p 0) =
        ⟨some [(idxJoin p 0, (a, b))], none, none⟩ := by
      rw [jdiff_fallback a b _ (isScalar_ne_null ha) (isScalar_ne_null hb)
        (by simp [isScalar_not_isObj ha]) (by simp [isScalar_not_isArr ha])]
      rw [if_neg hne]
    simp [jdiff, diffItems, hsub, mergeSub, updateA, upsert, pruneAcc,
      List.zip]

theorem claim_C7_witness :
    joinKey "a" "b" = "a" ++ "." ++ "b" ∧
    jdiff (.obj [("k", .num 1)]) (.obj [("k", .num 2)]) "p" =
      ⟨some [(joinKey "p" "k", (.num 1, .num 2))], none, none⟩ ∧
    jdiff (.arr [.num 1]) (.arr [.num 2]) "x" =
      ⟨some [(idxJoin "x" 0, (.num 1, .num 2))], none, none⟩ :=
  ⟨claim_C7_path_formation.2.1 "a" "b" (by decide),
   claim_C7_path_formation.2.2.2.2.2.1 "p" "k" (.num 1) (.num 2)
     (by decide) (by decide) (by decide),
   claim_C7_path_formation.2.2.2.2.2.2 "x" (.num 1) (.num 2)
     (by decide) (by decide) (by decide)⟩

theorem getVal_mem {α : Type} {k : String} {v : α} : ∀ {l : List (String × α)},
    getVal k l = some v → (k, v) ∈ l := by
  intro l h
  induction l with
  | nil => simp [getVal] at h
  | cons e rest ih =>
      obtain ⟨k', v'⟩ := e
      by_cases hk : k' = k
      · subst hk
        simp only [getVal, if_pos rfl] at h
        injection h with he
        simp [he]
      · simp only [getVal, if_neg hk] at h
        exact List.mem_cons_of_mem _ (ih h)

theorem getVal_none_ne {α : Type} {k : String} {l : List (String × α)}
    (h : getVal k l = none) {k2 : String} {v2 : α} (hm : (k2, v2) ∈ l) :
    k2 ≠ k := by
  intro he
  subst he
  have := getVal_isSome_of_mem hm
  simp [h] at this

theorem getVal_filter_none {α : Type} {k : String} {l : List (String × α)}
    {q : String × α → Bool} (h : getVal k l = none) :
    getVal k (l.filter q) = none := by
  cases hg : getVal k (l.filter q) with
  | none => rfl
  | some v =>
      have := List.mem_of_mem_filter (getVal_mem hg)
      exact absurd rfl (getVal_none_ne h this)

theorem nodupKeys_filter {α : Type} {l : List (String × α)}
    {q : String × α → Bool} (h : nodupKeys l) :
    nodupKeys (l.filter q) := by
  induction l with
  | nil => simp [nodupKeys]
  | cons e rest ih =>
      obtain ⟨k, v⟩ := e
      simp only [nodupKeys, Bool.and_eq_true] at h
      by_cases hq : q (k, v)
      · rw [List.filter_cons_of_pos hq]
        simp only [nodupKeys, Bool.and_eq_true]
        refine ⟨?_, ih h.2⟩
        have := getVal_filter_none (q := q)
          (Option.isNone_iff_eq_none.mp h.1)
        simp [this]
      · rw [List.filter_cons_of_neg hq]
        exact ih h.2

theorem upsert_not_mem {α : Type} : ∀ (m : List (String × α)) (k : String)
    (v : α), (∀ e ∈ m, e.1 ≠ k) → upsert m k v = m ++ [(k, v)]
  | [], k, v, h => rfl
  | (k', v') :: rest, k, v, h => by
      rw [upsert]
      rw [if_neg (h (k', v') (by simp))]
      rw [upsert_not_mem rest k v fun e he => h e (List.mem_cons_of_mem _ he)]
      simp

theorem joinKey_inj (p : String) {a b : String}
    (h : joinKey p a = joinKey p b) : a = b := by
  unfold joinKey at h
  split at h
  · exact h
  · have hd := congrArg String.data h
    simp only [String.data_append] at hd
    exact String.ext (List.append_cancel_left hd)

/-- Building a bucket by successive `d[path] = value` assignments over
entries with pairwise distinct keys and an injective path join appends
each entry: the resulting bucket is the corresponding map. -/
theorem foldl_upsert_eq_append {α : Type} (g : String → String)
    (ginj : ∀ {a b : String}, g a = g b → a = b) :
    ∀ (l : List (String × α)) (acc : List (String × α)),
    nodupKeys l → (∀ kv ∈ l, ∀ e ∈ acc, e.1 ≠ g kv.1) →
    l.foldl (fun m kv => upsert m (g kv.1) kv.2) acc =
      acc ++ l.map (fun kv => (g kv.1, kv.2))
  | [], acc, hnd, hfresh => by simp
  | (k, v) :: rest, acc, hnd, hfresh => by
      simp only [nodupKeys, Bool.and_eq_true] at hnd
      rw [List.foldl_cons]
      rw [upsert_not_mem acc (g k) v (hfresh (k, v) (by simp))]
      rw [foldl_upsert_eq_append g ginj rest (acc ++ [(g k, v)]) hnd.2 ?_]
      · simp
      · intro kv hkv e he
        rcases List.mem_append.mp he with hacc | hk
        · exact hfresh kv (List.mem_cons_of_mem _ hkv) e hacc
        · simp only [List.mem_singleton] at hk
          subst hk
          simp only [ne_eq]
          intro hgg
          have : k = kv.1 := ginj hgg
          have hmem : (kv.1, kv.2) ∈ rest := by simpa using hkv
          exact getVal_none_ne (Option.isNone_iff_eq_none.mp hnd.1)
            hmem this.symm

/-- C6: for two mappings, the keys only in the original populate `removed`
with their full subtrees at the joined paths, the keys only in the update
populate `added` the same way, and the common keys are diffed recursively
at the joined path with the three buckets of every sub-report merged into
the running result by per-bucket (overwriting) union, the whole result
being pruned before return. -/
theorem claim_C6_mappings : ∀ (l1 l2 : List (String × Value)) (p : String),
    nodupKeys l1 → nodupKeys l2 →
    jdiff (.obj l1) (.obj l2) p =
      pruneAcc ((l1.filter (fun kv => (getVal kv.1 l2).isSome)).foldl
        (fun acc kv => mergeSub acc
          (jdiff kv.2 ((getVal kv.1 l2).getD .null) (joinKey p kv.1)))
        ⟨[],
         (l2.filter (fun kv => (getVal kv.1 l1).isNone)).map
           (fun kv => (joinKey p kv.1, kv.2)),
         (l1.filter (fun kv => (getVal kv.1 l2).isNone)).map
           (fun kv => (joinKey p kv.1, kv.2))⟩) := by
  intro l1 l2 p h1 h2
  rw [jdiff.eq_def]
  simp only [reduceCtorEq, or_self, if_false]
  have hrem : (l1.filter (fun kv => (getVal kv.1 l2).isNone)).foldl
      (fun m kv => upsert m (joinKey p kv.1) kv.2) [] =
      (l1.filter (fun kv => (getVal kv.1 l2).isNone)).map
        (fun kv => (joinKey p kv.1, kv.2)) := by
    have := foldl_upsert_eq_append (joinKey p) (joinKey_inj p)
      (l1.filter (fun kv => (getVal kv.1 l2).isNone)) []
      (nodupKeys_filter h1) (by simp)
    simpa using this
  have hadd : (l2.filter (fun kv => (getVal kv.1 l1).isNone)).foldl
      (fun m kv => upsert m (joinKey p kv.1) kv.2) [] =
      (l2.filter (fun kv => (getVal kv.1 l1).isNone)).map
        (fun kv => (joinKey p kv.1, kv.2)) := by
    have := foldl_upsert_eq_append (joinKey p) (joinKey_inj p)
      (l2.filter (fun kv => (getVal kv.1 l1).isNone)) []
      (nodupKeys_filter h2) (by simp)
    simpa using this
  simp only [hrem, hadd, diffCommon_eq_foldl]

theorem claim_C6_witness :
    jdiff (.obj [("a", .num 1), ("b", .num 2)])
      (.obj [("a", .num 1), ("c", .num 3)]) "" =
      pruneAcc (([(("a" : String), Value.num 1), ("b", Value.num 2)].filter
        (fun kv => (getVal kv.1 [(("a" : String), Value.num 1),
          ("c", Value.num 3)]).isSome)).foldl
        (fun acc kv => mergeSub acc
          (jdiff kv.2 ((getVal kv.1 [(("a" : String), Value.num 1),
            ("c", Value.num 3)]).getD .null) (joinKey "" kv.1)))
        ⟨[],
         ([(("a" : String), Value.num 1), ("c", Value.num 3)].filter
           (fun kv => (getVal kv.1 [(("a" : String), Value.num 1),
             ("b", Value.num 2)]).isNone)).map
           (fun kv => (joinKey "" kv.1, kv.2)),
         ([(("a" : String), Value.num 1), ("b", Value.num 2)].filter
           (fun kv => (getVal kv.1 [(("a" : String), Value.num 1),
             ("c", Value.num 3)]).isNone)).map
           (fun kv => (joinKey "" kv.1, kv.2))⟩) :=
  claim_C6_mappings [("a", .num 1), ("b", .num 2)]
    [("a", .num 1), ("c", .num 3)] "" (by decide) (by decide)

/- ------------------------------------------------------------------ -/
/- Key-iteration-order independence (C9)                               -/
/- ------------------------------------------------------------------ -/

/-- A mapping key is clean for path analysis when it is non-empty and
contains neither `.` nor `[`, the two characters the path-join rules use
as separators.  Distinct clean keys can never produce colliding paths. -/
def keyOk (k : String) : Bool :=
  !k.isEmpty && k.data.all (fun c => !(c == '.') && !(c == '['))

/-- Every mapping key anywhere in the tree is clean. -/
def cleanKeys : Value → Bool
  | .null => true
  | .bool _ => true
  | .num _ => true
  | .str _ => true
  | .arr l => cleanL l
  | .obj l => cleanO l
where
  cleanL : List Value → Bool
    | [] => true
    | a :: l => cleanKeys a && cleanL l
  cleanO : List (String × Value) → Bool
    | [] => true
    | (k, v) :: l => keyOk k && cleanKeys v && cleanO l

theorem sizeOf_getD_getVal (k : String) (l : List (String × Value)) :
    sizeOf ((getVal k l).getD Value.null) ≤ sizeOf l := by
  cases h : getVal k l with
  | none =>
      cases l <;> simp <;> omega
  | some v =>
      have := sizeOf_getVal h
      simp
      omega

mutual

/-- Equality of two values as JSON data, with mapping key order
irrelevant: two mappings are equivalent when both have unique keys, the
same key set, and pointwise equivalent values; sequences are compared
positionally; scalars structurally.  Two equivalent trees are the same
Python data presented under two different dict key iteration orders. -/
def vequiv (a b : Value) : Bool :=
  match a, b with
  | .null, .null => true
  | .bool x, .bool y => x == y
  | .num x, .num y => x == y
  | .str x, .str y => x == y
  | .arr l1, .arr l2 => vequivL l1 l2
  | .obj l1, .obj l2 =>
      nodupKeys l1 && nodupKeys l2 && vequivO l2 l1 &&
        l2.all (fun kv => (getVal kv.1 l1).isSome)
  | _, _ => false
termination_by sizeOf a + sizeOf b
decreasing_by
  all_goals
    first
      | (simp
         omega)
      | simp

/-- Every entry of the second list has an equivalent binding in `l2`. -/
def vequivO (l2 : List (String × Value)) : List (String × Value) → Bool
  | [] => true
  | (k, v) :: rest =>
      (getVal k l2).isSome && vequiv v ((getVal k l2).getD .null) &&
        vequivO l2 rest
termination_by l => sizeOf l + sizeOf l2
decreasing_by
  all_goals
    first
      | (simp
         omega)
      | (rename_i s
         have := sizeOf_getD_getVal s l2
         simp
         omega)
      | simp

def vequivL : List Value → List Value → Bool
  | [], [] => true
  | a :: l1, b :: l2 => vequiv a b && vequivL l1 l2
  | _, _ => false
termination_by l1 l2 => sizeOf l1 + sizeOf l2
decreasing_by
  all_goals
    first
      | (simp
         omega)
      | simp

end

/-- Pointwise relation on optional values. -/
def optRel {α : Type} (eqv : α → α → Bool) : Option α → Option α → Prop
  | none, none => True
  | some a, some b => eqv a b
  | _, _ => False

/-- Two buckets agree as path-keyed mappings, values up to `eqv`. -/
def bEquiv {α : Type} (eqv : α → α → Bool)
    (m1 m2 : List (String × α)) : Prop :=
  ∀ q, optRel eqv (getVal q m1) (getVal q m2)

/-- Bucket agreement lifted to the optional (present/absent) bucket. -/
def obEquiv {α : Type} (eqv : α → α → Bool) :
    Option (List (String × α)) → Option (List (String × α)) → Prop
  | none, none => True
  | some m1, some m2 => bEquiv eqv m1 m2
  | _, _ => False

def pairEquiv (x y : Value × Value) : Bool := vequiv x.1 y.1 && vequiv x.2 y.2

/-- The two reports present the same buckets, and the present buckets
agree as path-keyed mappings with values compared as JSON data. -/
def ReportEquiv (r1 r2 : Report) : Prop :=
  obEquiv pairEquiv r1.modified r2.modified ∧
  obEquiv vequiv r1.added r2.added ∧
  obEquiv vequiv r1.removed r2.removed

def accEquiv (a b : DiffAcc) : Prop :=
  bEquiv pairEquiv a.modified b.modified ∧
  bEquiv vequiv a.added b.added ∧
  bEquiv vequiv a.removed b.removed

/-- All present buckets of the report have unique path keys (they embed
Python dicts). -/
def reportNodup (r : Report) : Prop :=
  (∀ m, r.modified = some m → nodupKeys m) ∧
  (∀ m, r.added = some m → nodupKeys m) ∧
  (∀ m, r.removed = some m → nodupKeys m)

def accNodup (a : DiffAcc) : Prop :=
  nodupKeys a.modified ∧ nodupKeys a.added ∧ nodupKeys a.removed

/-- Per-bucket merge step (`diff[key].update(value)` for one bucket). -/
def mergeB {α : Type} (m : List (String × α))
    (b : Option (List (String × α))) : List (String × α) :=
  (b.map (updateA m)).getD m

/-- All path keys recorded anywhere in the report. -/
def keysOfR (r : Report) : List String :=
  (r.modified.getD []).map Prod.fst ++ (r.added.getD []).map Prod.fst ++
    (r.removed.getD []).map Prod.fst

theorem getVal_upsert_self {α : Type} (k : String) (v : α) :
    ∀ (d : List (String × α)), getVal k (upsert d k v) = some v
  | [] => by simp [upsert, getVal]
  | (k', v') :: rest => by
      by_cases hk : k' = k
      · simp [upsert, hk, getVal]
      · simp only [upsert, if_neg hk, getVal]
        exact getVal_upsert_self k v rest

theorem getVal_upsert_ne {α : Type} {q k : String} (hne : q ≠ k) (v : α) :
    ∀ (d : List (String × α)), getVal q (upsert d k v) = getVal q d
  | [] => by
      simp only [upsert, getVal]
      rw [if_neg (fun h => hne h.symm)]
  | (k', v') :: rest => by
      by_cases hk : k' = k
      · subst hk
        simp only [upsert, if_pos rfl, getVal]
        rw [if_neg (fun h => hne h.symm), if_neg (fun h => hne h.symm)]

      · simp only [upsert, if_neg hk, getVal]
        by_cases hq : k' = q
        · rw [if_pos hq, if_pos hq]
        · rw [if_neg hq, if_neg hq]
          exact getVal_upsert_ne hne v rest

theorem upsert_nodupKeys {α : Type} {k : String} {v : α} :
    ∀ {d : List (String × α)}, nodupKeys d → nodupKeys (upsert d k v)
  | [], _ => by simp [upsert, nodupKeys, getVal]
  | (k', v') :: rest, h => by
      simp only [nodupKeys, Bool.and_eq_true] at h
      by_cases hk : k' = k
      · subst hk
        simp only [upsert, if_pos rfl, nodupKeys, Bool.and_eq_true]
        exact ⟨h.1, h.2⟩
      · simp only [upsert, if_neg hk, nodupKeys, Bool.and_eq_true]
        refine ⟨?_, upsert_nodupKeys h.2⟩
        rw [getVal_upsert_ne hk v rest]
        exact h.1

theorem updateA_nodupKeys {α : Type} :
    ∀ (l : List (String × α)) {d : List (String × α)}, nodupKeys d →
      nodupKeys (updateA d l)
  | [], _, h => h
  | (k, v) :: t, d, h => by
      simp only [updateA, List.foldl_cons]
      exact updateA_nodupKeys t (upsert_nodupKeys h)

theorem getVal_updateA_none {α : Type} {q : String} :
    ∀ (l : List (String × α)) (d : List (String × α)),
      getVal q l = none → getVal q (updateA d l) = getVal q d
  | [], d, _ => rfl
  | (k, v) :: t, d, h => by
      simp only [getVal] at h
      by_cases hk : k = q
      · rw [if_pos hk] at h
        cases h
      · rw [if_neg hk] at h
        simp only [updateA, List.foldl_cons]
        have hrec := getVal_updateA_none t (upsert d k v) h
        simp only [updateA] at hrec
        rw [hrec]
        exact getVal_upsert_ne (fun he => hk he.symm) v d

theorem getVal_updateA_some {α : Type} {q : String} {x : α} :
    ∀ (l : List (String × α)) (d : List (String × α)), nodupKeys l →
      getVal q l = some x → getVal q (updateA d l) = some x
  | [], _, _, h => by cases h
  | (k, v) :: t, d, hnd, h => by
      simp only [nodupKeys, Bool.and_eq_true] at hnd
      simp only [getVal] at h
      simp only [updateA, List.foldl_cons]
      by_cases hk : k = q
      · rw [if_pos hk] at h
        injection h with he
        subst he
        subst hk
        have ht : getVal k t = none := Option.isNone_iff_eq_none.mp hnd.1
        have hrec := getVal_updateA_none t (upsert d k v) ht
        simp only [updateA] at hrec
        rw [hrec, getVal_upsert_self]
      · rw [if_neg hk] at h
        have hrec := getVal_updateA_some t (upsert d k v) hnd.2 h
        simp only [updateA] at hrec
        exact hrec

theorem getVal_mergeB_none {α : Type} {q : String}
    {b : Option (List (String × α))} (m : List (String × α))
    (h : b.bind (getVal q) = none) : getVal q (mergeB m b) = getVal q m := by
  cases b with
  | none => rfl
  | some mk =>
      simp only [Option.some_bind] at h
      exact getVal_updateA_none mk m h

theorem getVal_mergeB_some {α : Type} {q : String} {x : α}
    {b : Option (List (String × α))} (m : List (String × α))
    (hnd : ∀ mk, b = some mk → nodupKeys mk)
    (h : b.bind (getVal q) = some x) : getVal q (mergeB m b) = some x := by
  cases b with
  | none => cases h
  | some mk =>
      simp only [Option.some_bind] at h
      exact getVal_updateA_some mk m (hnd mk rfl) h

theorem mergeB_rel {α : Type} {eqv : α → α → Bool} {m m' : List (String × α)}
    {b b' : Option (List (String × α))}
    (hm : bEquiv eqv m m') (hb : obEquiv eqv b b')
    (hnd : ∀ mk, b = some mk → nodupKeys mk)
    (hnd' : ∀ mk, b' = some mk → nodupKeys mk) :
    bEquiv eqv (mergeB m b) (mergeB m' b') := by
  intro q
  cases b with
  | none =>
      cases b' with
      | none => exact hm q
      | some mk' => exact absurd hb (by simp [obEquiv])
  | some mk =>
      cases b' with
      | none => exact absurd hb (by simp [obEquiv])
      | some mk' =>
          have hqk : optRel eqv (getVal q mk) (getVal q mk') := hb q
          cases hmk : getVal q mk with
          | none =>
              cases hmk' : getVal q mk' with
              | none =>
                  rw [getVal_mergeB_none m (by simp [hmk]),
                    getVal_mergeB_none m' (by simp [hmk'])]
                  exact hm q
              | some y =>
                  rw [hmk, hmk'] at hqk
                  exact hqk.elim
          | some x =>
              cases hmk' : getVal q mk' with
              | none =>
                  rw [hmk, hmk'] at hqk
                  exact hqk.elim
              | some y =>
                  have e1 : getVal q (mergeB m (some mk)) = some x :=
                    getVal_mergeB_some (x := x) m hnd (by simp [hmk])
                  have e2 : getVal q (mergeB m' (some mk')) = some y :=
                    getVal_mergeB_some (x := y) m' hnd' (by simp [hmk'])
                  rw [e1, e2]
                  rw [hmk, hmk'] at hqk
                  exact hqk

theorem vequiv_null_left {b : Value} (h : vequiv .null b) : b = .null := by
  cases b <;> simp_all [vequiv]

theorem vequiv_null_right {a : Value} (h : vequiv a .null) : a = .null := by
  cases a <;> simp_all [vequiv]

theorem vequiv_scalar_eq {a b : Value} (ha : isScalar a) (h : vequiv a b) :
    a = b := by
  cases a <;> cases b <;> simp_all [vequiv, isScalar]

theorem vequiv_isObj {a b : Value} (h : vequiv a b) : isObj a = isObj b := by
  cases a <;> cases b <;> simp_all [vequiv, isObj]

theorem vequiv_isArr {a b : Value} (h : vequiv a b) : isArr a = isArr b := by
  cases a <;> cases b <;> simp_all [vequiv, isArr]

theorem vequiv_isJsonType {a b : Value} (h : vequiv a b) :
    isJsonType a = isJsonType b := by
  cases a <;> cases b <;> simp_all [vequiv, isJsonType]

theorem vequivO_mem {l2 : List (String × Value)} :
    ∀ {l : List (String × Value)}, vequivO l2 l → ∀ {k : String} {v : Value},
      (k, v) ∈ l → ∃ v2, getVal k l2 = some v2 ∧ vequiv v v2 := by
  intro l
  induction l with
  | nil => intro _ k v hm; simp at hm
  | cons e rest ih =>
      obtain ⟨k', v'⟩ := e
      intro h k v hm
      rw [vequivO] at h
      simp only [Bool.and_eq_true] at h
      rcases List.mem_cons.mp hm with heq | hmem
      · injection heq with e1 e2
        subst e1
        subst e2
        cases hg : getVal k l2 with
        | none => rw [hg] at h; simp at h
        | some v2 =>
            refine ⟨v2, rfl, ?_⟩
            have := h.1.2
            rw [hg] at this
            simpa using this
      · exact ih h.2 hmem

/-- The two association lists present the same Python dict: unique keys,
equal key sets, pointwise equivalent values. -/
def dictRel (l l' : List (String × Value)) : Prop :=
  nodupKeys l ∧ nodupKeys l' ∧
  (∀ k v, (k, v) ∈ l → ∃ v', getVal k l' = some v' ∧ vequiv v v') ∧
  (∀ k v', (k, v') ∈ l' → ∃ v, getVal k l = some v ∧ vequiv v v')

theorem vequiv_obj_dictRel {l l' : List (String × Value)}
    (h : vequiv (.obj l) (.obj l')) : dictRel l l' := by
  rw [vequiv] at h
  simp only [Bool.and_eq_true] at h
  obtain ⟨⟨⟨hnd, hnd'⟩, hO⟩, hall⟩ := h
  refine ⟨hnd, hnd', ?_, ?_⟩
  · intro k v hm
    exact vequivO_mem hO hm
  · intro k v' hm'
    have hs : (getVal k l).isSome := by
      have := (List.all_eq_true.mp hall) (k, v') hm'
      simpa using this
    cases hv : getVal k l with
    | none => rw [hv] at hs; simp at hs
    | some v =>
        have hml : (k, v) ∈ l := getVal_mem hv
        obtain ⟨v2, hv2, he⟩ := vequivO_mem hO hml
        have hvv : v2 = v' := by
          rw [getVal_of_mem_nodup hnd' hm'] at hv2
          injection hv2 with e
          exact e.symm
        exact ⟨v, rfl, hvv ▸ he⟩

theorem pruneAcc_reportNodup {d : DiffAcc} (h : accNodup d) :
    reportNodup (pruneAcc d) := by
  obtain ⟨h1, h2, h3⟩ := h
  refine ⟨?_, ?_, ?_⟩ <;>
    · intro m hm
      simp only [pruneAcc] at hm
      split at hm <;> simp_all

theorem foldl_upsert_nodupKeys {α : Type} (g : String → String) :
    ∀ (l : List (String × α)) (acc : List (String × α)), nodupKeys acc →
      nodupKeys (l.foldl (fun m kv => upsert m (g kv.1) kv.2) acc)
  | [], _, h => h
  | kv :: t, acc, h =>
      foldl_upsert_nodupKeys g t (upsert acc (g kv.1) kv.2)
        (upsert_nodupKeys h)

theorem mergeSub_accNodup {a : DiffAcc} {r : Report} (h : accNodup a) :
    accNodup (mergeSub a r) := by
  obtain ⟨h1, h2, h3⟩ := h
  refine ⟨?_, ?_, ?_⟩
  · cases hr : r.modified with
    | none => simpa [mergeSub, hr] using h1
    | some mk => simpa [mergeSub, hr] using updateA_nodupKeys mk h1
  · cases hr : r.added with
    | none => simpa [mergeSub, hr] using h2
    | some mk => simpa [mergeSub, hr] using updateA_nodupKeys mk h2
  · cases hr : r.removed with
    | none => simpa [mergeSub, hr] using h3
    | some mk => simpa [mergeSub, hr] using updateA_nodupKeys mk h3

theorem foldl_mergeSub_accNodup {κ : Type} (f : κ → Report) :
    ∀ (K : List κ) (acc : DiffAcc), accNodup acc →
      accNodup (K.foldl (fun a kv => mergeSub a (f kv)) acc)
  | [], _, h => h
  | kv :: t, acc, h =>
      foldl_mergeSub_accNodup f t (mergeSub acc (f kv)) (mergeSub_accNodup h)

/-- Every report the worker produces has unique path keys per bucket (the
buckets embed Python dicts). -/
theorem jdiff_reportNodup (v1 v2 : Value) (p : String) :
    reportNodup (jdiff v1 v2 p) := by
  rw [jdiff.eq_def]
  split
  · refine ⟨?_, ?_, ?_⟩ <;>
      · intro m hm
        simp only [nullReport] at hm
        injection hm with e
        subst e
        simp [nodupKeys, getVal]
  · split
    · apply pruneAcc_reportNodup
      rw [diffCommon_eq_foldl]
      apply foldl_mergeSub_accNodup
      refine ⟨by simp [nodupKeys], ?_, ?_⟩
      · exact foldl_upsert_nodupKeys _ _ [] (by simp [nodupKeys])
      · exact foldl_upsert_nodupKeys _ _ [] (by simp [nodupKeys])
    · split
      · apply pruneAcc_reportNodup
        exact ⟨by simp [nodupKeys, getVal], by simp [nodupKeys],
          by simp [nodupKeys]⟩
      · apply pruneAcc_reportNodup
        rw [diffItems_eq_foldl]
        apply foldl_mergeSub_accNodup
        exact ⟨by simp [nodupKeys], by simp [nodupKeys], by simp [nodupKeys]⟩
    · split
      · apply pruneAcc_reportNodup
        exact ⟨by simp [nodupKeys, getVal], by simp [nodupKeys],
          by simp [nodupKeys]⟩
      · apply pruneAcc_reportNodup
        exact ⟨by simp [nodupKeys], by simp [nodupKeys], by simp [nodupKeys]⟩

theorem foldl_mergeSub_proj {α κ : Type} (pr : DiffAcc → List (String × α))
    (prR : Report → Option (List (String × α)))
    (hc : ∀ a r, pr (mergeSub a r) = mergeB (pr a) (prR r)) (f : κ → Report) :
    ∀ (K : List κ) (acc : DiffAcc),
      pr (K.foldl (fun a kv => mergeSub a (f kv)) acc) =
      K.foldl (fun m kv => mergeB m (prR (f kv))) (pr acc)
  | [], _ => rfl
  | kv :: t, acc => by
      rw [List.foldl_cons, List.foldl_cons,
        foldl_mergeSub_proj pr prR hc f t (mergeSub acc (f kv)), hc]

theorem bfold_no_hit {α κ : Type} (g : κ → Option (List (String × α)))
    (q : String) :
    ∀ (K : List κ) (m0 : List (String × α)),
      (∀ kv ∈ K, (g kv).bind (getVal q) = none) →
      getVal q (K.foldl (fun m kv => mergeB m (g kv)) m0) = getVal q m0
  | [], _, _ => rfl
  | kv :: t, m0, h => by
      rw [List.foldl_cons]
      rw [bfold_no_hit g q t (mergeB m0 (g kv))
        (fun kv2 h2 => h kv2 (List.mem_cons_of_mem _ h2))]
      exact getVal_mergeB_none m0 (h kv (by simp))

theorem bfold_hit {α κ : Type} (g : κ → Option (List (String × α)))
    (q : String) (x : α) :
    ∀ (K : List κ) (m0 : List (String × α)),
      (∀ kv ∈ K, (g kv).bind (getVal q) = none ∨
        (g kv).bind (getVal q) = some x) →
      (∀ kv ∈ K, ∀ mk, g kv = some mk → nodupKeys mk) →
      ((∃ kv ∈ K, (g kv).bind (getVal q) = some x) ∨ getVal q m0 = some x) →
      getVal q (K.foldl (fun m kv => mergeB m (g kv)) m0) = some x
  | [], m0, _, _, hex => by
      rcases hex with ⟨kv, hkv, _⟩ | hm0
      · simp at hkv
      · exact hm0
  | kv :: t, m0, hall, hnd, hex => by
      rw [List.foldl_cons]
      rcases hall kv (by simp) with hnone | hsome
      · refine bfold_hit g q x t (mergeB m0 (g kv))
          (fun kv2 h2 => hall kv2 (List.mem_cons_of_mem _ h2))
          (fun kv2 h2 => hnd kv2 (List.mem_cons_of_mem _ h2)) ?_
        rcases hex with ⟨kv2, hkv2, hh⟩ | hm0
        · rcases List.mem_cons.mp hkv2 with heq | h2
          · subst heq
            rw [hnone] at hh
            cases hh
          · exact Or.inl ⟨kv2, h2, hh⟩
        · right
          rw [getVal_mergeB_none m0 hnone]
          exact hm0
      · refine bfold_hit g q x t (mergeB m0 (g kv))
          (fun kv2 h2 => hall kv2 (List.mem_cons_of_mem _ h2))
          (fun kv2 h2 => hnd kv2 (List.mem_cons_of_mem _ h2)) ?_
        right
        exact getVal_mergeB_some m0 (hnd kv (by simp)) hsome

/-- Core of the order-independence argument for the common-keys loop: two
folds that merge key-indexed sub-buckets in possibly different orders
produce lookup-equivalent buckets, provided the two runs offer the same
keys with equivalent sub-buckets, keys are unique within each run, and
sub-buckets of distinct keys never contain the same path. -/
theorem fold_bucket_equiv {α : Type} {eqv : α → α → Bool}
    (gA gB : String × Value → Option (List (String × α)))
    (KA KB : List (String × Value)) (m0A m0B : List (String × α))
    (hAB : ∀ kv ∈ KA, ∃ kv', kv' ∈ KB ∧ kv'.1 = kv.1 ∧
      obEquiv eqv (gA kv) (gB kv'))
    (hBA : ∀ kv', kv' ∈ KB → ∃ kv, kv ∈ KA ∧ kv.1 = kv'.1 ∧
      obEquiv eqv (gA kv) (gB kv'))
    (hndA : ∀ kv ∈ KA, ∀ mk, gA kv = some mk → nodupKeys mk)
    (hndB : ∀ kv ∈ KB, ∀ mk, gB kv = some mk → nodupKeys mk)
    (huniqA : ∀ kv1, kv1 ∈ KA → ∀ kv2, kv2 ∈ KA → kv1.1 = kv2.1 → kv1 = kv2)
    (huniqB : ∀ kv1, kv1 ∈ KB → ∀ kv2, kv2 ∈ KB → kv1.1 = kv2.1 → kv1 = kv2)
    (hdisjA : ∀ kv1, kv1 ∈ KA → ∀ kv2, kv2 ∈ KA → kv1.1 ≠ kv2.1 → ∀ q,
      ((gA kv1).bind (getVal q)).isSome → ((gA kv2).bind (getVal q)).isSome →
      False)
    (hdisjB : ∀ kv1, kv1 ∈ KB → ∀ kv2, kv2 ∈ KB → kv1.1 ≠ kv2.1 → ∀ q,
      ((gB kv1).bind (getVal q)).isSome → ((gB kv2).bind (getVal q)).isSome →
      False)
    (hm0 : bEquiv eqv m0A m0B) :
    bEquiv eqv (KA.foldl (fun m kv => mergeB m (gA kv)) m0A)
      (KB.foldl (fun m kv => mergeB m (gB kv)) m0B) := by
  intro q
  by_cases hex : ∃ kv, kv ∈ KA ∧ ((gA kv).bind (getVal q)).isSome
  · obtain ⟨kv0, hkv0, hhit⟩ := hex
    cases hx : (gA kv0).bind (getVal q) with
    | none =>
        rw [hx] at hhit
        simp at hhit
    | some x =>
        obtain ⟨kv0', hkv0', hkey, hob⟩ := hAB kv0 hkv0
        have hy : ∃ y, (gB kv0').bind (getVal q) = some y ∧ eqv x y := by
          cases hga : gA kv0 with
          | none =>
              rw [hga] at hx
              cases hx
          | some mA =>
              cases hgb : gB kv0' with
              | none =>
                  rw [hga, hgb] at hob
                  exact hob.elim
              | some mB =>
                  rw [hga] at hx
                  simp only [Option.some_bind] at hx
                  rw [hga, hgb] at hob
                  have hq := hob q
                  rw [hx] at hq
                  cases hb : getVal q mB with
                  | none =>
                      rw [hb] at hq
                      exact hq.elim
                  | some y =>
                      rw [hb] at hq
                      exact ⟨y, by simp [hgb, hb], hq⟩
        obtain ⟨y, hby, hxy⟩ := hy
        have hallA : ∀ kv ∈ KA, (gA kv).bind (getVal q) = none ∨
            (gA kv).bind (getVal q) = some x := by
          intro kv hkv
          by_cases hk : kv.1 = kv0.1
          · have : kv = kv0 := huniqA kv hkv kv0 hkv0 hk
            subst this
            exact Or.inr hx
          · left
            by_contra hc
            have h1 : ((gA kv).bind (getVal q)).isSome := by
              cases hcc : (gA kv).bind (getVal q) with
              | none => exact absurd hcc hc
              | some _ => simp
            exact hdisjA kv hkv kv0 hkv0 hk q h1 (by simp [hx])
        have hallB : ∀ kv ∈ KB, (gB kv).bind (getVal q) = none ∨
            (gB kv).bind (getVal q) = some y := by
          intro kv hkv
          by_cases hk : kv.1 = kv0'.1
          · have : kv = kv0' := huniqB kv hkv kv0' hkv0' hk
            subst this
            exact Or.inr hby
          · left
            by_contra hc
            have h1 : ((gB kv).bind (getVal q)).isSome := by
              cases hcc : (gB kv).bind (getVal q) with
              | none => exact absurd hcc hc
              | some _ => simp
            exact hdisjB kv hkv kv0' hkv0' hk q h1 (by simp [hby])
        rw [bfold_hit gA q x KA m0A hallA hndA (Or.inl ⟨kv0, hkv0, hx⟩)]
        rw [bfold_hit gB q y KB m0B hallB hndB (Or.inl ⟨kv0', hkv0', hby⟩)]
        exact hxy
  · push_neg at hex
    have hA0 : ∀ kv ∈ KA, (gA kv).bind (getVal q) = none := by
      intro kv hkv
      cases hcc : (gA kv).bind (getVal q) with
      | none => rfl
      | some _ => exact absurd (by simp [hcc]) (hex kv hkv)
    have hB0 : ∀ kv' ∈ KB, (gB kv').bind (getVal q) = none := by
      intro kv' hkv'
      obtain ⟨kv, hkv, hkey, hob⟩ := hBA kv' hkv'
      have hA := hA0 kv hkv
      cases hgb : gB kv' with
      | none => rfl
      | some mB =>
          cases hga : gA kv with
          | none =>
              rw [hga, hgb] at hob
              exact hob.elim
          | some mA =>
              rw [hga] at hA
              simp only [Option.some_bind] at hA
              rw [hga, hgb] at hob
              have hq := hob q
              rw [hA] at hq
              cases hb : getVal q mB with
              | none => simp [hb]
              | some _ =>
                  rw [hb] at hq
                  exact hq.elim
    rw [bfold_no_hit gA q KA m0A hA0, bfold_no_hit gB q KB m0B hB0]
    exact hm0 q

/-- A path-extension: empty, or starting with the dot or bracket
separator. -/
def extD : List Char → Prop
  | [] => True
  | c :: _ => c = '.' ∨ c = '['

/-- `path` lies in the subtree of paths rooted at `parent`. -/
def extOf (parent path : String) : Prop :=
  ∃ e : String, extD e.data ∧ path = parent ++ e

theorem extOf_self (q : String) : extOf q q :=
  ⟨"", trivial, (String.append_empty q).symm⟩

theorem extOf_trans {q q' path : String} (h1 : extOf q q')
    (h2 : extOf q' path) : extOf q path := by
  obtain ⟨e1, he1, rfl⟩ := h1
  obtain ⟨e2, he2, rfl⟩ := h2
  refine ⟨e1 ++ e2, ?_, String.append_assoc q e1 e2⟩
  rw [String.data_append]
  cases hd : e1.data with
  | nil => simpa [hd] using he2
  | cons c t =>
      rw [hd] at he1
      simpa [extD] using he1

theorem extOf_joinKey {q : String} (k : String) (hq : q ≠ "") :
    extOf q (joinKey q k) := by
  refine ⟨"." ++ k, ?_, ?_⟩
  · rw [String.data_append]
    exact Or.inl rfl
  · simp [joinKey, hq, String.append_assoc]

theorem extOf_idxJoin (q : String) (i : Nat) : extOf q (idxJoin q i) := by
  refine ⟨"[" ++ (toString i ++ "]"), ?_, ?_⟩
  · rw [String.data_append]
    exact Or.inr rfl
  · simp [idxJoin, String.append_assoc]

theorem append_ne_empty_left {q : String} (s : String) (hq : q ≠ "") :
    q ++ s ≠ "" := by
  intro he
  have hd := congrArg String.data he
  simp [String.data_append] at hd
  exact hq (String.ext hd.1)

theorem append_ne_empty_right (q : String) {s : String} (hs : s ≠ "") :
    q ++ s ≠ "" := by
  intro he
  have hd := congrArg String.data he
  simp [String.data_append] at hd
  exact hs (String.ext hd.2)

theorem keyOk_ne_empty {k : String} (h : keyOk k) : k ≠ "" := by
  intro he
  subst he
  exact absurd h (by decide)

theorem keyOk_no_sep {k : String} (h : keyOk k) :
    ∀ c ∈ k.data, ¬(c = '.' ∨ c = '[') := by
  intro c hc
  simp only [keyOk, Bool.and_eq_true, List.all_eq_true] at h
  have := h.2 c hc
  simp only [Bool.and_eq_true, Bool.not_eq_true'] at this
  rintro (rfl | rfl)
  · simp at this
  · simp at this

theorem joinKey_ne_empty {q : String} (k : String) (hq : q ≠ "") :
    joinKey q k ≠ "" := by
  simp only [joinKey, if_neg hq]
  exact append_ne_empty_left k (append_ne_empty_left "." hq)

theorem joinKey_ne_empty_of_keyOk {q k : String} (hk : keyOk k) :
    joinKey q k ≠ "" := by
  by_cases hq : q = ""
  · subst hq
    simp only [joinKey, if_pos rfl]
    exact keyOk_ne_empty hk
  · exact joinKey_ne_empty k hq

theorem idxJoin_ne_empty (q : String) (i : Nat) : idxJoin q i ≠ "" := by
  simp only [idxJoin]
  exact append_ne_empty_right _ (by decide)

/-- Two distinct clean keys followed by path extensions can never spell
the same string. -/
theorem clean_ext_ne : ∀ (u v e f : List Char), u ≠ v → u ≠ [] → v ≠ [] →
    (∀ c ∈ u, ¬(c = '.' ∨ c = '[')) → (∀ c ∈ v, ¬(c = '.' ∨ c = '[')) →
    extD e → extD f → u ++ e ≠ v ++ f
  | [], _, _, _, hne, hu, _, _, _, _, _ => absurd rfl hu
  | _ :: _, [], _, _, hne, _, hv, _, _, _, _ => absurd rfl hv
  | c :: u', d :: v', e, f, hne, hu, hv, hcu, hcv, he, hf => by
      intro heq
      rw [List.cons_append, List.cons_append] at heq
      injection heq with h1 h2
      subst h1
      cases u' with
      | nil =>
          cases v' with
          | nil => exact hne rfl
          | cons d2 v'' =>
              rw [List.nil_append, List.cons_append] at h2
              have hext : extD (d2 :: (v'' ++ f)) := h2 ▸ he
              have hd2 := hcv d2 (by simp)
              exact hd2 (by simpa [extD] using hext)
      | cons c2 u'' =>
          cases v' with
          | nil =>
              rw [List.cons_append, List.nil_append] at h2
              have hext : extD (c2 :: (u'' ++ e)) := h2 ▸ hf
              have hc2 := hcu c2 (by simp)
              exact hc2 (by simpa [extD] using hext)
          | cons d2 v'' =>
              refine clean_ext_ne (c2 :: u'') (d2 :: v'') e f ?_
                (by simp) (by simp)
                (fun x hx => hcu x (List.mem_cons_of_mem _ hx))
                (fun x hx => hcv x (List.mem_cons_of_mem _ hx)) he hf h2
              intro hh
              exact hne (by rw [hh])

theorem extOf_key_disjoint {p k k' path : String} (hk : keyOk k)
    (hk' : keyOk k') (hne : k ≠ k') (h1 : extOf (joinKey p k) path)
    (h2 : extOf (joinKey p k') path) : False := by
  obtain ⟨e, he, hpe⟩ := h1
  obtain ⟨f, hf, hpf⟩ := h2
  have heq : joinKey p k ++ e = joinKey p k' ++ f := by rw [← hpe, ← hpf]
  have hdd : k.data ≠ k'.data := fun hdd => hne (String.ext hdd)
  have hdu : k.data ≠ [] := fun hd =>
    keyOk_ne_empty hk (String.ext (by simp [hd]))
  have hdv : k'.data ≠ [] := fun hd =>
    keyOk_ne_empty hk' (String.ext (by simp [hd]))
  have hdata := congrArg String.data heq
  by_cases hp : p = ""
  · subst hp
    simp only [joinKey, if_pos rfl, String.data_append] at hdata
    exact clean_ext_ne k.data k'.data e.data f.data hdd hdu hdv
      (keyOk_no_sep hk) (keyOk_no_sep hk') he hf hdata
  · simp only [joinKey, if_neg hp, String.data_append,
      List.append_assoc] at hdata
    have hdata2 := List.append_cancel_left hdata
    simp only [List.singleton_append] at hdata2
    injection hdata2 with h1 h2
    exact clean_ext_ne k.data k'.data e.data f.data hdd hdu hdv
      (keyOk_no_sep hk) (keyOk_no_sep hk') he hf h2

def keysOfAcc (a : DiffAcc) : List String :=
  a.modified.map Prod.fst ++ a.added.map Prod.fst ++ a.removed.map Prod.fst

theorem mem_keys_upsert {α : Type} {e : String} {k : String} {v : α} :
    ∀ {d : List (String × α)}, e ∈ (upsert d k v).map Prod.fst →
      e ∈ d.map Prod.fst ∨ e = k
  | [], h => by
      simp [upsert] at h
      exact Or.inr h
  | (k', v') :: rest, h => by
      by_cases hk : k' = k
      · simp only [upsert, if_pos hk, List.map_cons] at h
        rcases List.mem_cons.mp h with h1 | h2
        · exact Or.inr h1
        · exact Or.inl (by simp [hk]; right; simpa using h2)
      · simp only [upsert, if_neg hk, List.map_cons] at h
        rcases List.mem_cons.mp h with h1 | h2
        · exact Or.inl (by simp [h1])
        · rcases mem_keys_upsert h2 with h3 | h3
          · exact Or.inl (by simp; right; simpa using h3)
          · exact Or.inr h3

theorem mem_keys_updateA {α : Type} {e : String} :
    ∀ (l : List (String × α)) (d : List (String × α)),
      e ∈ (updateA d l).map Prod.fst →
      e ∈ d.map Prod.fst ∨ e ∈ l.map Prod.fst
  | [], _, h => Or.inl h
  | (k, v) :: t, d, h => by
      simp only [updateA, List.foldl_cons] at h
      have hrec := mem_keys_updateA t (upsert d k v) h
      rcases hrec with h1 | h2
      · rcases mem_keys_upsert h1 with h3 | h3
        · exact Or.inl h3
        · exact Or.inr (by simp [h3])
      · exact Or.inr (by simp; right; simpa using h2)

theorem mem_keys_mergeB {α : Type} {e : String}
    (m : List (String × α)) (b : Option (List (String × α)))
    (h : e ∈ (mergeB m b).map Prod.fst) :
    e ∈ m.map Prod.fst ∨ ∃ mk, b = some mk ∧ e ∈ mk.map Prod.fst := by
  cases b with
  | none => exact Or.inl h
  | some mk =>
      rcases mem_keys_updateA mk m h with h1 | h2
      · exact Or.inl h1
      · exact Or.inr ⟨mk, rfl, h2⟩

theorem mem_keysOfR_of_modified {r : Report} {m : List (String × (Value × Value))}
    {e : String} (hr : r.modified = some m) (h : e ∈ m.map Prod.fst) :
    e ∈ keysOfR r := by
  simp only [keysOfR, hr, List.mem_append]
  exact Or.inl (Or.inl (by simpa using h))

theorem mem_keysOfR_of_added {r : Report} {m : List (String × Value)}
    {e : String} (hr : r.added = some m) (h : e ∈ m.map Prod.fst) :
    e ∈ keysOfR r := by
  simp only [keysOfR, hr, List.mem_append]
  exact Or.inl (Or.inr (by simpa using h))

theorem mem_keysOfR_of_removed {r : Report} {m : List (String × Value)}
    {e : String} (hr : r.removed = some m) (h : e ∈ m.map Prod.fst) :
    e ∈ keysOfR r := by
  simp only [keysOfR, hr, List.mem_append]
  exact Or.inr (by simpa using h)

theorem mem_keysOfAcc_mergeSub {e : String} {a : DiffAcc} {r : Report}
    (h : e ∈ keysOfAcc (mergeSub a r)) : e ∈ keysOfAcc a ∨ e ∈ keysOfR r := by
  simp only [keysOfAcc, mergeSub, List.mem_append] at h
  rcases h with (h | h) | h
  · rcases mem_keys_mergeB a.modified r.modified h with h1 | ⟨mk, hmk, h2⟩
    · exact Or.inl (by
        simp only [keysOfAcc, List.mem_append]
        exact Or.inl (Or.inl h1))
    · exact Or.inr (mem_keysOfR_of_modified hmk h2)
  · rcases mem_keys_mergeB a.added r.added h with h1 | ⟨mk, hmk, h2⟩
    · exact Or.inl (by
        simp only [keysOfAcc, List.mem_append]
        exact Or.inl (Or.inr h1))
    · exact Or.inr (mem_keysOfR_of_added hmk h2)
  · rcases mem_keys_mergeB a.removed r.removed h with h1 | ⟨mk, hmk, h2⟩
    · exact Or.inl (by
        simp only [keysOfAcc, List.mem_append]
        exact Or.inr h1)
    · exact Or.inr (mem_keysOfR_of_removed hmk h2)

theorem mem_keysOfAcc_fold {κ : Type} (f : κ → Report) :
    ∀ (K : List κ) (acc : DiffAcc) (e : String),
      e ∈ keysOfAcc (K.foldl (fun a kv => mergeSub a (f kv)) acc) →
      e ∈ keysOfAcc acc ∨ ∃ kv ∈ K, e ∈ keysOfR (f kv)
  | [], _, _, h => Or.inl h
  | kv :: t, acc, e, h => by
      rw [List.foldl_cons] at h
      rcases mem_keysOfAcc_fold f t (mergeSub acc (f kv)) e h with h1 | ⟨kv2, h2, h3⟩
      · rcases mem_keysOfAcc_mergeSub h1 with h4 | h4
        · exact Or.inl h4
        · exact Or.inr ⟨kv, by simp, h4⟩
      · exact Or.inr ⟨kv2, List.mem_cons_of_mem _ h2, h3⟩

theorem mem_keysOfR_pruneAcc {e : String} {d : DiffAcc}
    (h : e ∈ keysOfR (pruneAcc d)) : e ∈ keysOfAcc d := by
  simp only [keysOfR, pruneAcc, List.mem_append] at h
  simp only [keysOfAcc, List.mem_append]
  rcases h with (h | h) | h
  · left; left
    split at h <;> simpa using h
  · left; right
    split at h <;> simpa using h
  · right
    split at h <;> simpa using h

theorem mem_keys_foldl_upsert {α : Type} (g : String → String) :
    ∀ (l : List (String × α)) (acc : List (String × α)) (e : String),
      e ∈ ((l.foldl (fun m kv => upsert m (g kv.1) kv.2) acc).map Prod.fst) →
      e ∈ acc.map Prod.fst ∨ ∃ kv ∈ l, e = g kv.1
  | [], _, _, h => Or.inl h
  | kv :: t, acc, e, h => by
      rw [List.foldl_cons] at h
      rcases mem_keys_foldl_upsert g t (upsert acc (g kv.1) kv.2) e h with
        h1 | ⟨kv2, h2, h3⟩
      · rcases mem_keys_upsert h1 with h3 | h3
        · exact Or.inl h3
        · exact Or.inr ⟨kv, by simp, h3⟩
      · exact Or.inr ⟨kv2, List.mem_cons_of_mem _ h2, h3⟩

theorem mem_snd_enumFrom {α : Type} :
    ∀ (l : List α) (i : Nat) (x : Nat × α), x ∈ List.enumFrom i l → x.2 ∈ l
  | [], _, _, h => by simp [List.enumFrom] at h
  | a :: t, i, x, h => by
      simp only [List.enumFrom] at h
      rcases List.mem_cons.mp h with h1 | h2
      · simp [h1]
      · exact List.mem_cons_of_mem _ (mem_snd_enumFrom t (i + 1) x h2)

/-- Every path recorded by a worker call with non-empty parent path is an
extension of that parent path. -/
theorem jdiff_extOf : ∀ (v1 v2 : Value) (q : String), q ≠ "" →
    ∀ path ∈ keysOfR (jdiff v1 v2 q), extOf q path := by
  intro v1 v2 q hq path hmem
  rw [jdiff.eq_def] at hmem
  split at hmem
  · have hpq : path = q := by
      simpa [nullReport, keysOfR] using hmem
    subst hpq
    exact extOf_self path
  · rename_i hnn
    split at hmem
    · rename_i l1 l2
      have hacc := mem_keysOfR_pruneAcc hmem
      rw [diffCommon_eq_foldl] at hacc
      rcases mem_keysOfAcc_fold _ _ _ _ hacc with h1 | ⟨kv, hkv, h3⟩
      · simp only [keysOfAcc, List.map_nil, List.nil_append,
          List.mem_append] at h1
        rcases h1 with h1 | h1
        · rcases mem_keys_foldl_upsert (joinKey q) _ [] path
            (by simpa using h1) with h2 | ⟨kv, _, h3⟩
          · simp at h2
          · exact h3 ▸ extOf_joinKey kv.1 hq
        · rcases mem_keys_foldl_upsert (joinKey q) _ [] path
            (by simpa using h1) with h2 | ⟨kv, _, h3⟩
          · simp at h2
          · exact h3 ▸ extOf_joinKey kv.1 hq
      · have hkv1 := List.mem_of_mem_filter hkv
        have hsz1 : sizeOf kv.2 < sizeOf l1 :=
          sizeOf_snd_of_mem (k := kv.1) (v := kv.2) (by simpa using hkv1)
        have hsz2 : sizeOf ((getVal kv.1 l2).getD Value.null) ≤ sizeOf l2 :=
          sizeOf_getD_getVal kv.1 l2
        have hrec := jdiff_extOf kv.2 ((getVal kv.1 l2).getD Value.null)
          (joinKey q kv.1) (joinKey_ne_empty kv.1 hq) path h3
        exact extOf_trans (extOf_joinKey kv.1 hq) hrec
    · rename_i l1 l2
      split at hmem
      · have hpq : path = q := by
          simpa [keysOfAcc] using mem_keysOfR_pruneAcc hmem
        subst hpq
        exact extOf_self path
      · have hacc := mem_keysOfR_pruneAcc hmem
        rw [diffItems_eq_foldl] at hacc
        rcases mem_keysOfAcc_fold _ _ _ _ hacc with h1 | ⟨x, hx, h3⟩
        · simp [keysOfAcc] at h1
        · have hx2 := mem_snd_enumFrom _ _ _ hx
          have hz := List.mem_zip hx2
          have hsz1 : sizeOf x.2.1 < sizeOf l1 := sizeOf_of_mem hz.1
          have hsz2 : sizeOf x.2.2 < sizeOf l2 := sizeOf_of_mem hz.2
          have hrec := jdiff_extOf x.2.1 x.2.2 (idxJoin q x.1)
            (idxJoin_ne_empty q x.1) path h3
          exact extOf_trans (extOf_idxJoin q x.1) hrec
    · split at hmem
      · have hpq : path = q := by
          simpa [keysOfAcc] using mem_keysOfR_pruneAcc hmem
        subst hpq
        exact extOf_self path
      · have hacc := mem_keysOfR_pruneAcc hmem
        simp [keysOfAcc] at hacc
termination_by v1 v2 _ _ _ _ => sizeOf v1 + sizeOf v2
decreasing_by
  all_goals
    subst_vars
    simp
    omega

theorem bEquiv_isEmpty {α : Type} {eqv : α → α → Bool}
    {m1 m2 : List (String × α)} (h : bEquiv eqv m1 m2) :
    m1.isEmpty = m2.isEmpty := by
  cases m1 with
  | nil =>
      cases m2 with
      | nil => rfl
      | cons e t =>
          obtain ⟨k, v⟩ := e
          have hk := h k
          simp [getVal, optRel] at hk
  | cons e t =>
      obtain ⟨k, v⟩ := e
      cases m2 with
      | nil =>
          have hk := h k
          simp [getVal, optRel] at hk
      | cons e2 t2 => rfl

theorem pruneAcc_equiv {a b : DiffAcc} (h : accEquiv a b) :
    ReportEquiv (pruneAcc a) (pruneAcc b) := by
  obtain ⟨h1, h2, h3⟩ := h
  refine ⟨?_, ?_, ?_⟩
  · have he := bEquiv_isEmpty h1
    by_cases hie : a.modified.isEmpty
    · have hie2 : b.modified.isEmpty = true := he ▸ hie
      simp [pruneAcc, hie, hie2, obEquiv]
    · have hie2 : ¬(b.modified.isEmpty = true) := he ▸ hie
      simp only [pruneAcc, if_neg hie, if_neg hie2]
      exact h1
  · have he := bEquiv_isEmpty h2
    by_cases hie : a.added.isEmpty
    · have hie2 : b.added.isEmpty = true := he ▸ hie
      simp [pruneAcc, hie, hie2, obEquiv]
    · have hie2 : ¬(b.added.isEmpty = true) := he ▸ hie
      simp only [pruneAcc, if_neg hie, if_neg hie2]
      exact h2
  · have he := bEquiv_isEmpty h3
    by_cases hie : a.removed.isEmpty
    · have hie2 : b.removed.isEmpty = true := he ▸ hie
      simp [pruneAcc, hie, hie2, obEquiv]
    · have hie2 : ¬(b.removed.isEmpty = true) := he ▸ hie
      simp only [pruneAcc, if_neg hie, if_neg hie2]
      exact h3

theorem vequivL_length : ∀ {l1 l2 : List Value}, vequivL l1 l2 →
    l1.length = l2.length
  | [], [], _ => rfl
  | [], _ :: _, h => by
      rw [vequivL] at h
      all_goals (intros; simp_all)
  | _ :: _, [], h => by
      rw [vequivL] at h
      all_goals (intros; simp_all)
  | _ :: t1, _ :: t2, h => by
      rw [vequivL] at h
      simp only [Bool.and_eq_true] at h
      simp [vequivL_length h.2]

theorem zip_zip_align : ∀ {l1 l1' l2 l2' : List Value},
    vequivL l1 l1' → vequivL l2 l2' →
    ∀ x ∈ (l1.zip l2).zip (l1'.zip l2'),
      vequiv x.1.1 x.2.1 ∧ vequiv x.1.2 x.2.2
  | [], _, _, _, _, _, _, hx => by simp [List.zip] at hx
  | _ :: _, [], _, _, h1, _, _, _ => by
      rw [vequivL] at h1
      all_goals (intros; simp_all)
  | _ :: _, _ :: _, [], _, _, _, _, hx => by simp [List.zip] at hx
  | _ :: _, _ :: _, _ :: _, [], _, h2, _, _ => by
      rw [vequivL] at h2
      all_goals (intros; simp_all)
  | a :: t1, a' :: t1', b :: t2, b' :: t2', h1, h2, x, hx => by
      rw [vequivL] at h1 h2
      simp only [Bool.and_eq_true] at h1 h2
      simp only [List.zip_cons_cons] at hx
      rcases List.mem_cons.mp hx with heq | hmem
      · subst heq
        exact ⟨h1.1, h2.1⟩
      · exact zip_zip_align h1.2 h2.2 x hmem

theorem mergeSub_rel {a b : DiffAcc} {r s : Report} (hab : accEquiv a b)
    (hrs : ReportEquiv r s) (hr : reportNodup r) (hs : reportNodup s) :
    accEquiv (mergeSub a r) (mergeSub b s) :=
  ⟨mergeB_rel hab.1 hrs.1 hr.1 hs.1,
   mergeB_rel hab.2.1 hrs.2.1 hr.2.1 hs.2.1,
   mergeB_rel hab.2.2 hrs.2.2 hr.2.2 hs.2.2⟩

theorem diffItems_rel (p : String) :
    ∀ (pairsA pairsB : List (Value × Value)) (i : Nat) (accA accB : DiffAcc),
    pairsA.length = pairsB.length →
    (∀ x ∈ pairsA.zip pairsB,
      ∀ q, ReportEquiv (jdiff x.1.1 x.1.2 q) (jdiff x.2.1 x.2.2 q)) →
    accEquiv accA accB →
    accEquiv (diffItems p i pairsA accA) (diffItems p i pairsB accB)
  | [], [], i, accA, accB, _, _, hacc => by
      rw [diffItems, diffItems]
      exact hacc
  | [], _ :: _, _, _, _, hlen, _, _ => by simp at hlen
  | _ :: _, [], _, _, _, hlen, _, _ => by simp at hlen
  | ab :: tA, ab2 :: tB, i, accA, accB, hlen, hx, hacc => by
      obtain ⟨a1, b1⟩ := ab
      obtain ⟨a2, b2⟩ := ab2
      rw [diffItems, diffItems]
      refine diffItems_rel p tA tB (i + 1) _ _ (by simpa using hlen)
        (fun x hxm q => hx x (List.mem_cons_of_mem _ hxm) q) ?_
      exact mergeSub_rel hacc (hx ((a1, b1), (a2, b2)) (by simp) (idxJoin p i))
        (jdiff_reportNodup a1 b1 (idxJoin p i))
        (jdiff_reportNodup a2 b2 (idxJoin p i))

theorem dictRel_none_iff {l l' : List (String × Value)} (h : dictRel l l')
    (k : String) : getVal k l = none ↔ getVal k l' = none := by
  constructor
  · intro hn
    cases hg : getVal k l' with
    | none => rfl
    | some v' =>
        obtain ⟨v, hv, _⟩ := h.2.2.2 k v' (getVal_mem hg)
        rw [hn] at hv
        cases hv
  · intro hn
    cases hg : getVal k l with
    | none => rfl
    | some v =>
        obtain ⟨v', hv', _⟩ := h.2.2.1 k v (getVal_mem hg)
        rw [hn] at hv'
        cases hv'

theorem entries_uniq {α : Type} {l : List (String × α)} (hnd : nodupKeys l)
    {k : String} {v1 v2 : α} (h1 : (k, v1) ∈ l) (h2 : (k, v2) ∈ l) :
    v1 = v2 := by
  have e1 := getVal_of_mem_nodup hnd h1
  have e2 := getVal_of_mem_nodup hnd h2
  rw [e1] at e2
  injection e2

theorem getVal_map_joinKey_none {α : Type} (p : String) {k : String} :
    ∀ {l : List (String × α)}, getVal k l = none →
      getVal (joinKey p k) (l.map (fun kv => (joinKey p kv.1, kv.2))) = none
  | [], _ => rfl
  | (k2, v2) :: rest, h => by
      simp only [getVal] at h
      by_cases hk : k2 = k
      · rw [if_pos hk] at h
        cases h
      · rw [if_neg hk] at h
        simp only [List.map_cons, getVal]
        rw [if_neg (fun he => hk (joinKey_inj p he))]
        exact getVal_map_joinKey_none p h

theorem nodupKeys_map_joinKey {α : Type} (p : String) :
    ∀ {l : List (String × α)}, nodupKeys l →
      nodupKeys (l.map (fun kv => (joinKey p kv.1, kv.2)))
  | [], _ => rfl
  | (k, v) :: rest, h => by
      simp only [nodupKeys, Bool.and_eq_true] at h
      simp only [List.map_cons, nodupKeys, Bool.and_eq_true]
      refine ⟨?_, nodupKeys_map_joinKey p h.2⟩
      rw [getVal_map_joinKey_none p (Option.isNone_iff_eq_none.mp h.1)]
      rfl

/-- The `removed` (or, with roles swapped, `added`) bucket built from two
equivalent source dicts filtered against two key-equal condition dicts is
the same path-keyed mapping up to value equivalence. -/
theorem filtered_map_bucket_rel (p : String)
    {lX lX' lY lY' : List (String × Value)} (hX : dictRel lX lX')
    (hY : ∀ k, getVal k lY = none ↔ getVal k lY' = none) :
    bEquiv vequiv
      ((lX.filter (fun kv => (getVal kv.1 lY).isNone)).map
        (fun kv => (joinKey p kv.1, kv.2)))
      ((lX'.filter (fun kv => (getVal kv.1 lY').isNone)).map
        (fun kv => (joinKey p kv.1, kv.2))) := by
  have hndA := nodupKeys_map_joinKey p
    (nodupKeys_filter (q := fun kv => (getVal kv.1 lY).isNone) hX.1)
  have hndB := nodupKeys_map_joinKey p
    (nodupKeys_filter (q := fun kv => (getVal kv.1 lY').isNone) hX.2.1)
  intro q
  cases hA : getVal q ((lX.filter (fun kv => (getVal kv.1 lY).isNone)).map
      (fun kv => (joinKey p kv.1, kv.2))) with
  | some x =>
      obtain ⟨kv, hkvf, hkveq⟩ := List.mem_map.mp (getVal_mem hA)
      injection hkveq with he1 he2
      have hkvX : kv ∈ lX := List.mem_of_mem_filter hkvf
      have hkvY : (getVal kv.1 lY).isNone := by
        have := List.of_mem_filter hkvf
        simpa using this
      obtain ⟨v', hv', hvv⟩ := hX.2.2.1 kv.1 kv.2 (by
        obtain ⟨k0, v0⟩ := kv
        exact hkvX)
      have hkvY' : (getVal kv.1 lY').isNone = true := by
        rw [Option.isNone_iff_eq_none]
        exact (hY kv.1).mp (Option.isNone_iff_eq_none.mp hkvY)
      have hmemB : ((joinKey p kv.1, v') : String × Value) ∈
          (lX'.filter (fun kv => (getVal kv.1 lY').isNone)).map
            (fun kv => (joinKey p kv.1, kv.2)) := by
        refine List.mem_map.mpr ⟨(kv.1, v'), ?_, rfl⟩
        refine List.mem_filter.mpr ⟨getVal_mem hv', by simpa using hkvY'⟩
      have hB : getVal q ((lX'.filter (fun kv => (getVal kv.1 lY').isNone)).map
          (fun kv => (joinKey p kv.1, kv.2))) = some v' := by
        rw [← he1]
        exact getVal_of_mem_nodup hndB hmemB
      rw [hB]
      exact he2 ▸ hvv
  | none =>
      cases hB : getVal q ((lX'.filter (fun kv => (getVal kv.1 lY').isNone)).map
          (fun kv => (joinKey p kv.1, kv.2))) with
      | none => trivial
      | some y =>
          obtain ⟨kv, hkvf, hkveq⟩ := List.mem_map.mp (getVal_mem hB)
          injection hkveq with he1 he2
          have hkvX' : kv ∈ lX' := List.mem_of_mem_filter hkvf
          have hkvY' : (getVal kv.1 lY').isNone := by
            have := List.of_mem_filter hkvf
            simpa using this
          obtain ⟨v, hv, hvv⟩ := hX.2.2.2 kv.1 kv.2 (by
            obtain ⟨k0, v0⟩ := kv
            exact hkvX')
          have hkvY : (getVal kv.1 lY).isNone = true := by
            rw [Option.isNone_iff_eq_none]
            exact (hY kv.1).mpr (Option.isNone_iff_eq_none.mp hkvY')
          have hmemA : ((joinKey p kv.1, v) : String × Value) ∈
              (lX.filter (fun kv => (getVal kv.1 lY).isNone)).map
                (fun kv => (joinKey p kv.1, kv.2)) := by
            refine List.mem_map.mpr ⟨(kv.1, v), ?_, rfl⟩
            refine List.mem_filter.mpr ⟨getVal_mem hv, by simpa using hkvY⟩
          have hA2 : getVal q ((lX.filter (fun kv => (getVal kv.1 lY).isNone)).map
              (fun kv => (joinKey p kv.1, kv.2))) = some v := by
            rw [← he1]
            exact getVal_of_mem_nodup hndA hmemA
          rw [hA] at hA2
          cases hA2

theorem hit_keysOfR_modified {r : Report} {q : String}
    (h : (r.modified.bind (getVal q)).isSome) : q ∈ keysOfR r := by
  cases hm : r.modified with
  | none => rw [hm] at h; cases h
  | some mk =>
      rw [hm] at h
      simp only [Option.some_bind] at h
      cases hg : getVal q mk with
      | none => rw [hg] at h; cases h
      | some x =>
          exact mem_keysOfR_of_modified hm
            (by simpa using List.mem_map_of_mem Prod.fst (getVal_mem hg))

theorem hit_keysOfR_added {r : Report} {q : String}
    (h : (r.added.bind (getVal q)).isSome) : q ∈ keysOfR r := by
  cases hm : r.added with
  | none => rw [hm] at h; cases h
  | some mk =>
      rw [hm] at h
      simp only [Option.some_bind] at h
      cases hg : getVal q mk with
      | none => rw [hg] at h; cases h
      | some x =>
          exact mem_keysOfR_of_added hm
            (by simpa using List.mem_map_of_mem Prod.fst (getVal_mem hg))

theorem hit_keysOfR_removed {r : Report} {q : String}
    (h : (r.removed.bind (getVal q)).isSome) : q ∈ keysOfR r := by
  cases hm : r.removed with
  | none => rw [hm] at h; cases h
  | some mk =>
      rw [hm] at h
      simp only [Option.some_bind] at h
      cases hg : getVal q mk with
      | none => rw [hg] at h; cases h
      | some x =>
          exact mem_keysOfR_of_removed hm
            (by simpa using List.mem_map_of_mem Prod.fst (getVal_mem hg))

theorem cleanKeys_of_mem_obj {l : List (String × Value)} {k : String}
    {v : Value} (h : cleanKeys (.obj l)) (hm : (k, v) ∈ l) :
    keyOk k ∧ cleanKeys v := by
  simp only [cleanKeys] at h
  induction l with
  | nil => simp at hm
  | cons a t ih =>
      obtain ⟨ak, av⟩ := a
      simp only [cleanKeys.cleanO, Bool.and_eq_true] at h
      rcases List.mem_cons.mp hm with h1 | h2
      · injection h1 with e1 e2
        subst e1
        subst e2
        exact ⟨h.1.1, h.1.2⟩
      · exact ih h.2 h2

theorem cleanKeys_of_mem_arr {l : List Value} {x : Value}
    (h : cleanKeys (.arr l)) (hx : x ∈ l) : cleanKeys x := by
  simp only [cleanKeys] at h
  induction l with
  | nil => simp at hx
  | cons a t ih =>
      simp only [cleanKeys.cleanL, Bool.and_eq_true] at h
      rcases List.mem_cons.mp hx with h1 | h2
      · exact h1 ▸ h.1
      · exact ih h.2 h2

theorem vequiv_isScalar {a b : Value} (h : vequiv a b) :
    isScalar a = isScalar b := by
  cases a <;> cases b <;> simp_all [vequiv, isScalar]

/-- In the fall-through case, equality of the two originals coincides with
equality of the two reordered presentations. -/
theorem fallback_eq_iff {v1 v2 w1 w2 : Value} (h1 : vequiv v1 w1)
    (h2 : vequiv v2 w2) (hn1 : v1 ≠ .null) (hn2 : v2 ≠ .null)
    (hno : ¬(isObj v1 ∧ isObj v2)) (hna : ¬(isArr v1 ∧ isArr v2)) :
    (v1 = v2) ↔ (w1 = w2) := by
  by_cases hs : isScalar v1 ∧ isScalar v2
  · rw [← vequiv_scalar_eq hs.1 h1, ← vequiv_scalar_eq hs.2 h2]
  · have hv12 : v1 ≠ v2 := by
      intro he
      subst he
      cases v1 <;> simp_all [isObj, isArr, isScalar]
    have hw12 : w1 ≠ w2 := by
      intro he
      have hono := vequiv_isObj h1
      have hono2 := vequiv_isObj h2
      have harr := vequiv_isArr h1
      have harr2 := vequiv_isArr h2
      have hsc := vequiv_isScalar h1
      have hsc2 := vequiv_isScalar h2
      have hwn1 : w1 ≠ .null := fun hh => hn1 (vequiv_null_right (hh ▸ h1))
      subst he
      cases w1 <;> cases v1 <;> cases v2 <;>
        simp_all [isObj, isArr, isScalar]
    simp [hv12, hw12]

theorem isObj_elim {v : Value} (h : isObj v) : ∃ l, v = .obj l := by
  cases v <;> simp_all [isObj]

theorem isArr_elim {v : Value} (h : isArr v) : ∃ l, v = .arr l := by
  cases v <;> simp_all [isArr]

theorem vequiv_arr_elim {l l' : List Value}
    (h : vequiv (.arr l) (.arr l')) : vequivL l l' := by
  rw [vequiv] at h
  exact h

/-- Order-independence core for the both-Mapping case, the recursive
sub-report relations being supplied as hypotheses. -/
theorem jdiff_obj_equiv_core (l1 l2 l1' l2' : List (String × Value))
    (p : String) (hr1 : dictRel l1 l1') (hr2 : dictRel l2 l2')
    (hOk1 : ∀ kv, kv ∈ l1 → keyOk kv.1)
    (hOk1' : ∀ kv, kv ∈ l1' → keyOk kv.1)
    (hsubs : ∀ kv, kv ∈ l1.filter (fun kv => (getVal kv.1 l2).isSome) →
      ∃ kv', kv' ∈ l1'.filter (fun kv => (getVal kv.1 l2').isSome) ∧
        kv'.1 = kv.1 ∧
        ReportEquiv (jdiff kv.2 ((getVal kv.1 l2).getD .null) (joinKey p kv.1))
          (jdiff kv'.2 ((getVal kv'.1 l2').getD .null) (joinKey p kv'.1)))
    (hsubs' : ∀ kv', kv' ∈ l1'.filter (fun kv => (getVal kv.1 l2').isSome) →
      ∃ kv, kv ∈ l1.filter (fun kv => (getVal kv.1 l2).isSome) ∧
        kv.1 = kv'.1 ∧
        ReportEquiv (jdiff kv.2 ((getVal kv.1 l2).getD .null) (joinKey p kv.1))
          (jdiff kv'.2 ((getVal kv'.1 l2').getD .null) (joinKey p kv'.1))) :
    ReportEquiv (jdiff (.obj l1) (.obj l2) p)
      (jdiff (.obj l1') (.obj l2') p) := by
  rw [jdiff.eq_def]
  simp only [reduceCtorEq, or_self, if_false]
  rw [jdiff.eq_def]
  simp only [reduceCtorEq, or_self, if_false]
  have hremA := foldl_upsert_eq_append (joinKey p) (joinKey_inj p)
    (l1.filter (fun kv => (getVal kv.1 l2).isNone)) []
    (nodupKeys_filter hr1.1) (by simp)
  have hremB := foldl_upsert_eq_append (joinKey p) (joinKey_inj p)
    (l1'.filter (fun kv => (getVal kv.1 l2').isNone)) []
    (nodupKeys_filter hr1.2.1) (by simp)
  have haddA := foldl_upsert_eq_append (joinKey p) (joinKey_inj p)
    (l2.filter (fun kv => (getVal kv.1 l1).isNone)) []
    (nodupKeys_filter hr2.1) (by simp)
  have haddB := foldl_upsert_eq_append (joinKey p) (joinKey_inj p)
    (l2'.filter (fun kv => (getVal kv.1 l1').isNone)) []
    (nodupKeys_filter hr2.2.1) (by simp)
  simp only [List.nil_append] at hremA hremB haddA haddB
  rw [diffCommon_eq_foldl, diffCommon_eq_foldl, hremA, hremB, haddA, haddB]
  apply pruneAcc_equiv
  have hndsubA : ∀ kv, kv ∈ l1.filter (fun kv => (getVal kv.1 l2).isSome) →
      reportNodup (jdiff kv.2 ((getVal kv.1 l2).getD .null)
        (joinKey p kv.1)) :=
    fun kv _ => jdiff_reportNodup _ _ _
  have hndsubB : ∀ kv, kv ∈ l1'.filter (fun kv => (getVal kv.1 l2').isSome) →
      reportNodup (jdiff kv.2 ((getVal kv.1 l2').getD .null)
        (joinKey p kv.1)) :=
    fun kv _ => jdiff_reportNodup _ _ _
  have huniqA : ∀ kv1, kv1 ∈ l1.filter (fun kv => (getVal kv.1 l2).isSome) →
      ∀ kv2, kv2 ∈ l1.filter (fun kv => (getVal kv.1 l2).isSome) →
      kv1.1 = kv2.1 → kv1 = kv2 := by
    rintro ⟨a1, b1⟩ hm1 ⟨a2, b2⟩ hm2 hk
    simp only at hk
    subst hk
    have hb : b1 = b2 := entries_uniq hr1.1
      (List.mem_of_mem_filter hm1) (List.mem_of_mem_filter hm2)
    rw [hb]
  have huniqB : ∀ kv1, kv1 ∈ l1'.filter (fun kv => (getVal kv.1 l2').isSome) →
      ∀ kv2, kv2 ∈ l1'.filter (fun kv => (getVal kv.1 l2').isSome) →
      kv1.1 = kv2.1 → kv1 = kv2 := by
    rintro ⟨a1, b1⟩ hm1 ⟨a2, b2⟩ hm2 hk
    simp only at hk
    subst hk
    have hb : b1 = b2 := entries_uniq hr1.2.1
      (List.mem_of_mem_filter hm1) (List.mem_of_mem_filter hm2)
    rw [hb]
  have hdisjA : ∀ kv1, kv1 ∈ l1.filter (fun kv => (getVal kv.1 l2).isSome) →
      ∀ kv2, kv2 ∈ l1.filter (fun kv => (getVal kv.1 l2).isSome) →
      kv1.1 ≠ kv2.1 → ∀ q,
      q ∈ keysOfR (jdiff kv1.2 ((getVal kv1.1 l2).getD .null)
        (joinKey p kv1.1)) →
      q ∈ keysOfR (jdiff kv2.2 ((getVal kv2.1 l2).getD .null)
        (joinKey p kv2.1)) → False := by
    intro kv1 hm1 kv2 hm2 hk q hq1 hq2
    have hOka1 := hOk1 kv1 (List.mem_of_mem_filter hm1)
    have hOka2 := hOk1 kv2 (List.mem_of_mem_filter hm2)
    have hx1 := jdiff_extOf _ _ (joinKey p kv1.1)
      (joinKey_ne_empty_of_keyOk hOka1) q hq1
    have hx2 := jdiff_extOf _ _ (joinKey p kv2.1)
      (joinKey_ne_empty_of_keyOk hOka2) q hq2
    exact extOf_key_disjoint hOka1 hOka2 hk hx1 hx2
  have hdisjB : ∀ kv1, kv1 ∈ l1'.filter (fun kv => (getVal kv.1 l2').isSome) →
      ∀ kv2, kv2 ∈ l1'.filter (fun kv => (getVal kv.1 l2').isSome) →
      kv1.1 ≠ kv2.1 → ∀ q,
      q ∈ keysOfR (jdiff kv1.2 ((getVal kv1.1 l2').getD .null)
        (joinKey p kv1.1)) →
      q ∈ keysOfR (jdiff kv2.2 ((getVal kv2.1 l2').getD .null)
        (joinKey p kv2.1)) → False := by
    intro kv1 hm1 kv2 hm2 hk q hq1 hq2
    have hOka1 := hOk1' kv1 (List.mem_of_mem_filter hm1)
    have hOka2 := hOk1' kv2 (List.mem_of_mem_filter hm2)
    have hx1 := jdiff_extOf _ _ (joinKey p kv1.1)
      (joinKey_ne_empty_of_keyOk hOka1) q hq1
    have hx2 := jdiff_extOf _ _ (joinKey p kv2.1)
      (joinKey_ne_empty_of_keyOk hOka2) q hq2
    exact extOf_key_disjoint hOka1 hOka2 hk hx1 hx2
  refine ⟨?_, ?_, ?_⟩
  · rw [foldl_mergeSub_proj DiffAcc.modified Report.modified
      (fun a r => rfl) _ _ _,
      foldl_mergeSub_proj DiffAcc.modified Report.modified
      (fun a r => rfl) _ _ _]
    refine fold_bucket_equiv _ _ _ _ _ _
      (fun kv hkv => ?_) (fun kv' hkv' => ?_)
      (fun kv hkv mk hmk => ((hndsubA kv hkv).1) mk hmk)
      (fun kv hkv mk hmk => ((hndsubB kv hkv).1) mk hmk)
      huniqA huniqB
      (fun kv1 h1 kv2 h2 hk q hh1 hh2 => hdisjA kv1 h1 kv2 h2 hk q
        (hit_keysOfR_modified hh1) (hit_keysOfR_modified hh2))
      (fun kv1 h1 kv2 h2 hk q hh1 hh2 => hdisjB kv1 h1 kv2 h2 hk q
        (hit_keysOfR_modified hh1) (hit_keysOfR_modified hh2))
      (fun q => trivial)
    · obtain ⟨kv', hm, hk, hre⟩ := hsubs kv hkv
      exact ⟨kv', hm, hk, hre.1⟩
    · obtain ⟨kv, hm, hk, hre⟩ := hsubs' kv' hkv'
      exact ⟨kv, hm, hk, hre.1⟩
  · rw [foldl_mergeSub_proj DiffAcc.added Report.added
      (fun a r => rfl) _ _ _,
      foldl_mergeSub_proj DiffAcc.added Report.added
      (fun a r => rfl) _ _ _]
    refine fold_bucket_equiv _ _ _ _ _ _
      (fun kv hkv => ?_) (fun kv' hkv' => ?_)
      (fun kv hkv mk hmk => ((hndsubA kv hkv).2.1) mk hmk)
      (fun kv hkv mk hmk => ((hndsubB kv hkv).2.1) mk hmk)
      huniqA huniqB
      (fun kv1 h1 kv2 h2 hk q hh1 hh2 => hdisjA kv1 h1 kv2 h2 hk q
        (hit_keysOfR_added hh1) (hit_keysOfR_added hh2))
      (fun kv1 h1 kv2 h2 hk q hh1 hh2 => hdisjB kv1 h1 kv2 h2 hk q
        (hit_keysOfR_added hh1) (hit_keysOfR_added hh2))
      (filtered_map_bucket_rel p hr2 (dictRel_none_iff hr1))
    · obtain ⟨kv', hm, hk, hre⟩ := hsubs kv hkv
      exact ⟨kv', hm, hk, hre.2.1⟩
    · obtain ⟨kv, hm, hk, hre⟩ := hsubs' kv' hkv'
      exact ⟨kv, hm, hk, hre.2.1⟩
  · rw [foldl_mergeSub_proj DiffAcc.removed Report.removed
      (fun a r => rfl) _ _ _,
      foldl_mergeSub_proj DiffAcc.removed Report.removed
      (fun a r => rfl) _ _ _]
    refine fold_bucket_equiv _ _ _ _ _ _
      (fun kv hkv => ?_) (fun kv' hkv' => ?_)
      (fun kv hkv mk hmk => ((hndsubA kv hkv).2.2) mk hmk)
      (fun kv hkv mk hmk => ((hndsubB kv hkv).2.2) mk hmk)
      huniqA huniqB
      (fun kv1 h1 kv2 h2 hk q hh1 hh2 => hdisjA kv1 h1 kv2 h2 hk q
        (hit_keysOfR_removed hh1) (hit_keysOfR_removed hh2))
      (fun kv1 h1 kv2 h2 hk q hh1 hh2 => hdisjB kv1 h1 kv2 h2 hk q
        (hit_keysOfR_removed hh1) (hit_keysOfR_removed hh2))
      (filtered_map_bucket_rel p hr1 (dictRel_none_iff hr2))
    · obtain ⟨kv', hm, hk, hre⟩ := hsubs kv hkv
      exact ⟨kv', hm, hk, hre.2.2⟩
    · obtain ⟨kv, hm, hk, hre⟩ := hsubs' kv' hkv'
      exact ⟨kv, hm, hk, hre.2.2⟩

/-- Key-iteration-order independence of the worker: diffing the same JSON
data presented under two different mapping key orders yields reports that
agree as path-keyed mappings, provided every mapping key is clean. -/
theorem jdiff_equiv : ∀ (v1 v2 w1 w2 : Value) (p : String),
    cleanKeys v1 → cleanKeys v2 → cleanKeys w1 → cleanKeys w2 →
    vequiv v1 w1 → vequiv v2 w2 →
    ReportEquiv (jdiff v1 v2 p) (jdiff w1 w2 p) := by
  intro v1 v2 w1 w2 p hc1 hc2 hd1 hd2 h1 h2
  by_cases hnull : v1 = .null ∨ v2 = .null
  · have hwnull : w1 = .null ∨ w2 = .null := by
      rcases hnull with h | h
      · exact Or.inl (vequiv_null_left (h ▸ h1))
      · exact Or.inr (vequiv_null_left (h ▸ h2))
    rw [jdiff.eq_def, jdiff.eq_def, if_pos hnull, if_pos hwnull]
    refine ⟨?_, fun q => trivial, fun q => trivial⟩
    intro q
    by_cases hpq : p = q
    · simp only [nullReport, getVal, if_pos hpq]
      simp [optRel, pairEquiv, h1, h2]
    · simp only [nullReport, getVal, if_neg hpq]
      trivial
  · have hn1 : v1 ≠ .null := fun h => hnull (Or.inl h)
    have hn2 : v2 ≠ .null := fun h => hnull (Or.inr h)
    have hwn1 : w1 ≠ .null := fun h => hn1 (vequiv_null_right (h ▸ h1))
    have hwn2 : w2 ≠ .null := fun h => hn2 (vequiv_null_right (h ▸ h2))
    by_cases hobj : isObj v1 ∧ isObj v2
    · obtain ⟨l1, rfl⟩ := isObj_elim hobj.1
      obtain ⟨l2, rfl⟩ := isObj_elim hobj.2
      have hwo1 : isObj w1 := by
        rw [← vequiv_isObj h1]
        rfl
      have hwo2 : isObj w2 := by
        rw [← vequiv_isObj h2]
        rfl
      obtain ⟨l1', rfl⟩ := isObj_elim hwo1
      obtain ⟨l2', rfl⟩ := isObj_elim hwo2
      have hr1 := vequiv_obj_dictRel h1
      have hr2 := vequiv_obj_dictRel h2
      apply jdiff_obj_equiv_core l1 l2 l1' l2' p hr1 hr2
      · intro kv hkv
        exact (cleanKeys_of_mem_obj hc1
          (show (kv.1, kv.2) ∈ l1 by simpa using hkv)).1
      · intro kv hkv
        exact (cleanKeys_of_mem_obj hd1
          (show (kv.1, kv.2) ∈ l1' by simpa using hkv)).1
      · intro kv hkv
        have hkvl1 : (kv.1, kv.2) ∈ l1 := by
          simpa using List.mem_of_mem_filter hkv
        have hkvs : (getVal kv.1 l2).isSome = true := by
          simpa using List.of_mem_filter hkv
        obtain ⟨v', hv', hvv⟩ := hr1.2.2.1 kv.1 kv.2 hkvl1
        have hs' : (getVal kv.1 l2').isSome = true := by
          cases hu : getVal kv.1 l2 with
          | none =>
              rw [hu] at hkvs
              simp at hkvs
          | some u =>
              obtain ⟨u', hu', _⟩ := hr2.2.2.1 kv.1 u (getVal_mem hu)
              simp [hu']
        refine ⟨(kv.1, v'),
          List.mem_filter.mpr ⟨getVal_mem hv', by simpa using hs'⟩, rfl, ?_⟩
        cases hu : getVal kv.1 l2 with
        | none =>
            rw [hu] at hkvs
            simp at hkvs
        | some u =>
            obtain ⟨u', hu', huu⟩ := hr2.2.2.1 kv.1 u (getVal_mem hu)
            simp only [hu, hu', Option.getD_some]
            have hsz1 : sizeOf kv.2 < sizeOf l1 :=
              sizeOf_snd_of_mem hkvl1
            have hsz2 : sizeOf u < sizeOf l2 := sizeOf_getVal hu
            exact jdiff_equiv kv.2 u v' u' (joinKey p kv.1)
              (cleanKeys_of_mem_obj hc1 hkvl1).2
              (cleanKeys_of_mem_obj hc2 (getVal_mem hu)).2
              (cleanKeys_of_mem_obj hd1 (getVal_mem hv')).2
              (cleanKeys_of_mem_obj hd2 (getVal_mem hu')).2
              hvv huu
      · intro kv' hkv'
        have hkvl1' : (kv'.1, kv'.2) ∈ l1' := by
          simpa using List.mem_of_mem_filter hkv'
        have hkvs' : (getVal kv'.1 l2').isSome = true := by
          simpa using List.of_mem_filter hkv'
        obtain ⟨v, hv, hvv⟩ := hr1.2.2.2 kv'.1 kv'.2 hkvl1'
        have hs : (getVal kv'.1 l2).isSome = true := by
          cases hu' : getVal kv'.1 l2' with
          | none =>
              rw [hu'] at hkvs'
              simp at hkvs'
          | some u' =>
              obtain ⟨u, hu, _⟩ := hr2.2.2.2 kv'.1 u' (getVal_mem hu')
              simp [hu]
        refine ⟨(kv'.1, v),
          List.mem_filter.mpr ⟨getVal_mem hv, by simpa using hs⟩, rfl, ?_⟩
        cases hu' : getVal kv'.1 l2' with
        | none =>
            rw [hu'] at hkvs'
            simp at hkvs'
        | some u' =>
            obtain ⟨u, hu, huu⟩ := hr2.2.2.2 kv'.1 u' (getVal_mem hu')
            simp only [hu, hu', Option.getD_some]
            have hsz1 : sizeOf v < sizeOf l1 :=
              sizeOf_snd_of_mem (getVal_mem hv)
            have hsz2 : sizeOf u < sizeOf l2 := sizeOf_getVal hu
            exact jdiff_equiv v u kv'.2 u' (joinKey p kv'.1)
              (cleanKeys_of_mem_obj hc1 (getVal_mem hv)).2
              (cleanKeys_of_mem_obj hc2 (getVal_mem hu)).2
              (cleanKeys_of_mem_obj hd1 hkvl1').2
              (cleanKeys_of_mem_obj hd2 (getVal_mem hu')).2
              hvv huu
    · by_cases harr : isArr v1 ∧ isArr v2
      · obtain ⟨l1, rfl⟩ := isArr_elim harr.1
        obtain ⟨l2, rfl⟩ := isArr_elim harr.2
        have hwa1 : isArr w1 := by
          rw [← vequiv_isArr h1]
          rfl
        have hwa2 : isArr w2 := by
          rw [← vequiv_isArr h2]
          rfl
        obtain ⟨l1', rfl⟩ := isArr_elim hwa1
        obtain ⟨l2', rfl⟩ := isArr_elim hwa2
        have hL1 := vequiv_arr_elim h1
        have hL2 := vequiv_arr_elim h2
        have hlen1 : l1.length = l1'.length := vequivL_length hL1
        have hlen2 : l2.length = l2'.length := vequivL_length hL2
        rw [jdiff.eq_def]
        simp only [reduceCtorEq, or_self, if_false]
        rw [jdiff.eq_def]
        simp only [reduceCtorEq, or_self, if_false]
        by_cases hlen : l1.length = l2.length
        · rw [if_neg (by simp [hlen]), if_neg (by
            simp only [ne_eq, Decidable.not_not]
            omega)]
          apply pruneAcc_equiv
          apply diffItems_rel
          · simp only [List.length_zip]
            omega
          · intro x hx q
            have hal := zip_zip_align hL1 hL2 x hx
            obtain ⟨hxA, hxB⟩ := List.mem_zip hx
            obtain ⟨hx11, hx12⟩ := List.mem_zip hxA
            have hsz1 : sizeOf x.1.1 < sizeOf l1 := sizeOf_of_mem hx11
            have hsz2 : sizeOf x.1.2 < sizeOf l2 := sizeOf_of_mem hx12
            obtain ⟨hx21, hx22⟩ := List.mem_zip hxB
            exact jdiff_equiv x.1.1 x.1.2 x.2.1 x.2.2 q
              (cleanKeys_of_mem_arr hc1 hx11)
              (cleanKeys_of_mem_arr hc2 hx12)
              (cleanKeys_of_mem_arr hd1 hx21)
              (cleanKeys_of_mem_arr hd2 hx22) hal.1 hal.2
          · exact ⟨fun q => trivial, fun q => trivial, fun q => trivial⟩
        · rw [if_pos (by simpa using hlen), if_pos (by
            simp only [ne_eq]
            omega)]
          apply pruneAcc_equiv
          refine ⟨?_, fun q => trivial, fun q => trivial⟩
          intro q
          by_cases hpq : p = q
          · simp only [getVal, if_pos hpq]
            simp [optRel, pairEquiv, h1, h2]
          · simp only [getVal, if_neg hpq]
            trivial
      · have hwobj : ¬(isObj w1 ∧ isObj w2) := by
          rw [← vequiv_isObj h1, ← vequiv_isObj h2]
          exact hobj
        have hwarr : ¬(isArr w1 ∧ isArr w2) := by
          rw [← vequiv_isArr h1, ← vequiv_isArr h2]
          exact harr
        rw [jdiff_fallback v1 v2 p hn1 hn2 hobj harr,
          jdiff_fallback w1 w2 p hwn1 hwn2 hwobj hwarr]
        have hiff := fallback_eq_iff h1 h2 hn1 hn2 hobj harr
        by_cases he : v1 = v2
        · rw [if_pos he, if_pos (hiff.mp he)]
          exact ⟨trivial, trivial, trivial⟩
        · rw [if_neg he, if_neg (fun hw => he (hiff.mpr hw))]
          refine ⟨?_, trivial, trivial⟩
          intro q
          by_cases hpq : p = q
          · simp only [getVal, if_pos hpq]
            simp [optRel, pairEquiv, h1, h2]
          · simp only [getVal, if_neg hpq]
            trivial
termination_by v1 v2 _ _ _ _ _ _ _ _ _ => sizeOf v1 + sizeOf v2
decreasing_by
  all_goals
    subst_vars
    simp
    omega

/-- C9, counterexample: the report content DOES depend on the key
iteration order.  The two original inputs hold the same bindings in two
different orders (they are `vequiv`), yet against the same second input
the two runs disagree at path `"a.b"`: the dotted key `"a.b"` of the
outer mapping collides with the joined path of key `"b"` inside the
subtree at key `"a"`, and the overwrite-union keeps whichever sub-report
was merged last. -/
theorem claim_C9_counterexample :
    vequiv (.obj [("a", .obj [("b", .num 1)]), ("a.b", .num 2)])
      (.obj [("a.b", .num 2), ("a", .obj [("b", .num 1)])]) ∧
    json_diff (.obj [("a", .obj [("b", .num 1)]), ("a.b", .num 2)])
      (.obj [("a", .obj [("b", .num 3)]), ("a.b", .num 4)]) "" false =
      .ok ⟨some [("a.b", (.num 2, .num 4))], none, none⟩ ∧
    json_diff (.obj [("a.b", .num 2), ("a", .obj [("b", .num 1)])])
      (.obj [("a", .obj [("b", .num 3)]), ("a.b", .num 4)]) "" false =
      .ok ⟨some [("a.b", (.num 1, .num 3))], none, none⟩ ∧
    ((Value.num 2, Value.num 4) : Value × Value) ≠ (.num 1, .num 3) := by
  refine ⟨?_, ?_, ?_, by decide⟩
  · simp [vequiv, vequivO, vequivL, nodupKeys, getVal]
  · simp [json_diff, jdiff, diffCommon, diffItems, getVal, upsert, updateA,
      mergeSub, pruneAcc, joinKey, idxJoin, nullReport, isJsonType]
  · simp [json_diff, jdiff, diffCommon, diffItems, getVal, upsert, updateA,
      mergeSub, pruneAcc, joinKey, idxJoin, nullReport, isJsonType]

/-- C9, amended: when every mapping key in the four trees is non-empty
and free of the path separator characters `.` and `[` — so that distinct
tree locations always receive distinct paths — the report content is
independent of mapping key iteration order: two runs on the same JSON
data presented under any two key orders either both raise the guard or
return reports that agree as path-keyed mappings per bucket, values
compared as JSON data. -/
theorem claim_C9_amended : ∀ (v1 v2 w1 w2 : Value) (p : String) (r : Bool),
    cleanKeys v1 → cleanKeys v2 → cleanKeys w1 → cleanKeys w2 →
    vequiv v1 w1 → vequiv v2 w2 →
    (json_diff v1 v2 p r = .error invalidInputMsg ∧
      json_diff w1 w2 p r = .error invalidInputMsg) ∨
    (∃ rep1 rep2, json_diff v1 v2 p r = .ok rep1 ∧
      json_diff w1 w2 p r = .ok rep2 ∧ ReportEquiv rep1 rep2) := by
  intro v1 v2 w1 w2 p r hc1 hc2 hd1 hd2 h1 h2
  unfold json_diff
  by_cases hnull : v1 = .null ∨ v2 = .null
  · have hwnull : w1 = .null ∨ w2 = .null := by
      rcases hnull with h | h
      · exact Or.inl (vequiv_null_left (h ▸ h1))
      · exact Or.inr (vequiv_null_left (h ▸ h2))
    rw [if_pos hnull, if_pos hwnull]
    right
    refine ⟨nullReport p v1 v2, nullReport p w1 w2, rfl, rfl, ?_⟩
    have e1 : jdiff v1 v2 p = nullReport p v1 v2 := by
      rw [jdiff.eq_def, if_pos hnull]
    have e2 : jdiff w1 w2 p = nullReport p w1 w2 := by
      rw [jdiff.eq_def, if_pos hwnull]
    rw [← e1, ← e2]
    exact jdiff_equiv v1 v2 w1 w2 p hc1 hc2 hd1 hd2 h1 h2
  · have hwnull : ¬(w1 = .null ∨ w2 = .null) := by
      intro h
      rcases h with h | h
      · exact hnull (Or.inl (vequiv_null_right (h ▸ h1)))
      · exact hnull (Or.inr (vequiv_null_right (h ▸ h2)))
    rw [if_neg hnull, if_neg hwnull]
    by_cases hguard : r = false ∧ ¬(isJsonType v1 ∨ isJsonType v2)
    · have hwguard : r = false ∧ ¬(isJsonType w1 ∨ isJsonType w2) :=
        ⟨hguard.1, by
          rw [← vequiv_isJsonType h1, ← vequiv_isJsonType h2]
          exact hguard.2⟩
      rw [if_pos hguard, if_pos hwguard]
      exact Or.inl ⟨rfl, rfl⟩
    · have hwguard : ¬(r = false ∧ ¬(isJsonType w1 ∨ isJsonType w2)) := by
        intro h
        exact hguard ⟨h.1, by
          rw [vequiv_isJsonType h1, vequiv_isJsonType h2]
          exact h.2⟩
      rw [if_neg hguard, if_neg hwguard]
      exact Or.inr ⟨jdiff v1 v2 p, jdiff w1 w2 p, rfl, rfl,
        jdiff_equiv v1 v2 w1 w2 p hc1 hc2 hd1 hd2 h1 h2⟩

theorem claim_C9_witness :
    (json_diff (.obj [("a", .num 1), ("b", .num 2)]) (.obj [("a", .num 3)])
      "" false = .error invalidInputMsg ∧
     json_diff (.obj [("b", .num 2), ("a", .num 1)]) (.obj [("a", .num 3)])
      "" false = .error invalidInputMsg) ∨
    (∃ rep1 rep2,
      json_diff (.obj [("a", .num 1), ("b", .num 2)]) (.obj [("a", .num 3)])
        "" false = .ok rep1 ∧
      json_diff (.obj [("b", .num 2), ("a", .num 1)]) (.obj [("a", .num 3)])
        "" false = .ok rep2 ∧ ReportEquiv rep1 rep2) :=
  claim_C9_amended (.obj [("a", .num 1), ("b", .num 2)]) (.obj [("a", .num 3)])
    (.obj [("b", .num 2), ("a", .num 1)]) (.obj [("a", .num 3)]) "" false
    (by decide) (by decide) (by decide) (by decide)
    (by simp [vequiv, vequivO, vequivL, nodupKeys, getVal])
    (by simp [vequiv, vequivO, vequivL, nodupKeys, getVal])

end JsonDiffer
